import Mathlib

/-!
# Verification of the flow-cli contract import resolver and deployment-order sorter

This file shallowly embeds the `resolvers` package (`ImportResolver`, `Sort`,
`Add`, `ResolveImports`, `sortByDeploymentOrder`, `CyclicImportError`) and
settles the frozen claims about it.

The `Program` value type (`newProgram`, `imports`, `isContract`,
`addDependency`, `addAlias`, `Name`) and the stabilized topological sort of
the external graph library are not part of the given source tree; they are
modelled from the specification, as marked on each such definition.
-/

namespace FlowResolvers

/-- Modelled from the spec: `kind` classifies a source unit as a contract or a
script; sorting is defined only over contracts. -/
inductive ProgramKind where
  | contract
  | script
deriving DecidableEq, Repr

/-- Modelled from the spec: a `Program` is one source unit with its identity,
code, target account, extracted import locations, and resolved import edges.
`index` is the 0-based registration order.  `dependencies` is the ordered set
of resolved program dependencies, keyed by the import location and holding the
`index` of the depended-upon program (the Go code stores a pointer to it; the
registration index is that program's stable graph identifier).  `aliases` maps
an import location to the external address it was resolved to. -/
structure Program where
  index : Nat
  location : String
  code : String
  accountAddress : Nat
  accountName : String
  args : List String
  name : String
  importLocations : List String
  dependencies : List (String × Nat)
  aliases : List (String × Nat)
  kind : ProgramKind
deriving DecidableEq, Repr

/-- Modelled from the spec: result of the external source parser / import
extractor on one source text: the declared name, the ordered list of import
locations, and whether the unit is a contract. -/
structure ParsedProgram where
  name : String
  imports : List String
  kind : ProgramKind
deriving DecidableEq, Repr

/-- Modelled from the spec: the Loader collaborator; `none` is its single
"not found / read error" failure mode. -/
def Loader := String → Option String

/-- Modelled from the spec: the Import Extractor / parser collaborator;
`none` is the construction-error class for malformed source. -/
def Parser := String → Option ParsedProgram

/-- Modelled from the spec: external address parsing (`flow.HexToAddress`):
a hex string, with an optional `0x` prefix, read as a number. -/
def hexDigitVal (c : Char) : Nat :=
  if '0' ≤ c ∧ c ≤ '9' then c.toNat - '0'.toNat
  else if 'a' ≤ c ∧ c ≤ 'f' then c.toNat - 'a'.toNat + 10
  else if 'A' ≤ c ∧ c ≤ 'F' then c.toNat - 'A'.toNat + 10
  else 0

/-- Reads a list of hex digits into a number, most significant first. -/
def hexListVal : Nat → List Char → Nat
  | acc, [] => acc
  | acc, c :: cs => hexListVal (16 * acc + hexDigitVal c) cs

/-- Modelled from the spec: external address parsing (`flow.HexToAddress`). -/
def hexToAddress (s : String) : Nat :=
  match s.data with
  | '0' :: 'x' :: rest => hexListVal 0 rest
  | l => hexListVal 0 l

/-- Modelled from the spec: `Program.isContract`. -/
def Program.isContract (p : Program) : Bool :=
  p.kind = ProgramKind.contract

/-- Modelled from the spec: `Program.imports` returns the extracted import
locations. -/
def Program.imports (p : Program) : List String :=
  p.importLocations

/-- Modelled from the spec: `Program.Name`. -/
def Program.Name (p : Program) : String :=
  p.name

/-- Modelled from the spec: `addDependency` records, on the importer, a
resolved dependency edge for import location `loc` pointing at the registered
program whose index is `target`. -/
def Program.addDependency (p : Program) (loc : String) (target : Nat) : Program :=
  { p with dependencies := p.dependencies ++ [(loc, target)] }

/-- Modelled from the spec: `addAlias` records, on the importer, an alias
resolution of import location `loc` to external address `addr`. -/
def Program.addAlias (p : Program) (loc : String) (addr : Nat) : Program :=
  { p with aliases := p.aliases ++ [(loc, addr)] }

/-- Modelled from the spec: `newProgram` invokes the Import Extractor on the
loaded source text and constructs a `Program` with empty `dependencies` and
`aliases`; a parse failure is the construction error. -/
def newProgram (parse : Parser) (index : Nat) (location code : String)
    (accountAddress : Nat) (accountName : String) (args : List String) :
    Option Program :=
  match parse code with
  | none => none
  | some info =>
      some { index := index, location := location, code := code,
             accountAddress := accountAddress, accountName := accountName,
             args := args, name := info.name,
             importLocations := info.imports,
             dependencies := [], aliases := [], kind := info.kind }

/-- Errors returned by the resolver's operations (`Sort` / `ResolveImports`).
`notSortable` is the "sorting is only possible for contracts" error,
`unresolvedImport` the "import from ... could not be found" error carrying the
importing program's name and the unresolved location, and `cyclicImport` the
`CyclicImportError` carrying the list of cycle groups. -/
inductive ResolverError where
  | notSortable
  | unresolvedImport (programName : String) (importLocation : String)
  | cyclicImport (cycles : List (List Program))
deriving DecidableEq, Repr

/-- The `ImportResolver` state: the registered programs in registration order,
the location registry, and the alias table fixed at construction.  The Go
struct also holds the `Loader`; the parser enters through `newProgram`.
`programsByLocation` is the Go map, embedded as an association list whose most
recent insertion is consulted first (`List.lookup` takes the first match). -/
structure ImportResolver where
  programs : List Program
  loader : Loader
  parse : Parser
  aliases : List (String × String)
  programsByLocation : List (String × Nat)

/-- `NewImportResolver` constructs an empty resolver over the given loader and
alias table. -/
def NewImportResolver (loader : Loader) (parse : Parser)
    (aliases : List (String × String)) : ImportResolver :=
  { programs := [], loader := loader, parse := parse, aliases := aliases,
    programsByLocation := [] }

/-- `Programs` returns the resolver's program sequence. -/
def ImportResolver.Programs (c : ImportResolver) : List Program :=
  c.programs

/-- `Add` loads the source for `location`, constructs a program with
`index = len(programs)`, appends it to `programs` and records it in
`programsByLocation` under its location; `none` covers the load and
construction failures. -/
def ImportResolver.Add (c : ImportResolver) (location : String)
    (accountAddress : Nat) (accountName : String) (args : List String) :
    Option (Program × ImportResolver) :=
  match c.loader location with
  | none => none
  | some code =>
      match newProgram c.parse c.programs.length location code accountAddress
          accountName args with
      | none => none
      | some contract =>
          some (contract,
            { c with programs := c.programs ++ [contract],
                     programsByLocation :=
                       (contract.location, contract.index) ::
                         c.programsByLocation })

/-- One program's resolution pass: each import location is checked against the
registered programs first, then against the alias table, and the first
location matching neither aborts with the unresolved-import error.  The
returned program carries the dependency and alias records made before the
failure point (the Go code mutates the program in place). -/
def resolveProgramAux (byLoc : List (String × Nat))
    (tbl : List (String × String)) :
    Program → List String → Program × Option ResolverError
  | p, [] => (p, none)
  | p, loc :: rest =>
      match byLoc.lookup loc with
      | some target => resolveProgramAux byLoc tbl (p.addDependency loc target) rest
      | none =>
          match tbl.lookup loc with
          | some a => resolveProgramAux byLoc tbl (p.addAlias loc (hexToAddress a)) rest
          | none => (p, some (ResolverError.unresolvedImport p.Name loc))

/-- The program-list traversal of `ResolveImports`, in registration order;
stops at the first program whose resolution fails, keeping the partial
mutations made up to that point. -/
def resolveAll (byLoc : List (String × Nat)) (tbl : List (String × String)) :
    List Program → List Program × Option ResolverError
  | [] => ([], none)
  | p :: ps =>
      match resolveProgramAux byLoc tbl p p.imports with
      | (p', none) =>
          let r := resolveAll byLoc tbl ps
          (p' :: r.1, r.2)
      | (p', some e) => (p' :: ps, some e)

/-- `ResolveImports` checks every program import and builds the dependency
tree; the returned resolver is the (possibly partially) mutated receiver. -/
def ImportResolver.ResolveImports (c : ImportResolver) :
    ImportResolver × Option ResolverError :=
  let r := resolveAll c.programsByLocation c.aliases c.programs
  ({ c with programs := r.1 }, r.2)

/-- The edge list of the deployment graph: one node per program (identified by
its registration index) and, for every recorded dependency of a program `c`,
one edge directed from the depended-upon program to `c`. -/
def buildEdges (contracts : List Program) : List (Nat × Nat) :=
  contracts.flatMap (fun c => c.dependencies.map (fun d => (d.2, c.index)))

/-- A program is ready for removal by Kahn's algorithm when no remaining
program has an edge into it (a self-loop keeps a program unready forever). -/
def isReady (edges : List (Nat × Nat)) (remaining : List Program)
    (p : Program) : Bool :=
  !(remaining.any (fun q => decide ((q.index, p.index) ∈ edges)))

/-- The smaller-`index` program of two (left-biased). -/
def minf (a b : Program) : Program :=
  if b.index < a.index then b else a

/-- The minimum-`index` element of a program list, `none` when empty. -/
def pickMin : List Program → Option Program
  | [] => none
  | p :: ps => some (ps.foldl minf p)

/-- Modelled from the spec: the stabilized topological sort of the external
graph library (Kahn's algorithm that always removes the ready node of
smallest registration index).  Returns the emitted order and the residual
nodes left when no node is ready any more; the residual is empty exactly on
success.  `fuel` bounds the recursion and `remaining.length` is always
enough. -/
def kahnAux (edges : List (Nat × Nat)) :
    Nat → List Program → List Program × List Program
  | 0, remaining => ([], remaining)
  | fuel + 1, remaining =>
      match pickMin (remaining.filter (isReady edges remaining)) with
      | none => ([], remaining)
      | some p =>
          (p :: (kahnAux edges fuel (remaining.erase p)).1,
           (kahnAux edges fuel (remaining.erase p)).2)

/-- Bounded reachability along the edge list: `reachb edges f a b` holds when
some directed path of at most `f` edges leads from `a` to `b`. -/
def reachb (edges : List (Nat × Nat)) : Nat → Nat → Nat → Bool
  | 0, a, b => a == b
  | f + 1, a, b =>
      a == b || edges.any (fun e => e.1 == a && reachb edges f e.2 b)

/-- Bounded mutual reachability: `a` and `b` lie in the same strongly
connected component when the bound is large enough. -/
def sameSCCb (edges : List (Nat × Nat)) (f a b : Nat) : Bool :=
  reachb edges f a b && reachb edges f b a

/-- The members of `p`'s strongly connected component among the residual
nodes, in residual order. -/
def sccOf (edges : List (Nat × Nat)) (f : Nat) (residual : List Program)
    (p : Program) : List Program :=
  residual.filter (fun q => sameSCCb edges f p.index q.index)

/-- `p` represents a reported cycle group when it is the first residual member
of its component and the component is nontrivial (more than one member, or a
self-loop). -/
def isCycleRep (edges : List (Nat × Nat)) (f : Nat) (residual : List Program)
    (p : Program) : Bool :=
  decide ((sccOf edges f residual p).head? = some p) &&
    (decide ((sccOf edges f residual p).length > 1) ||
      decide ((p.index, p.index) ∈ edges))

/-- Modelled from the spec: the cycle groups reported on failure — every
strongly connected component of size greater than one, or containing a
self-loop, each rendered as the sequence of its programs. -/
def cycleGroups (edges : List (Nat × Nat)) (f : Nat)
    (residual : List Program) : List (List Program) :=
  (residual.filter (isCycleRep edges f residual)).map (sccOf edges f residual)

/-- `sortByDeploymentOrder` builds the dependency graph over the given
contracts and topologically sorts it (stabilized, smallest index first among
ready nodes); when cycles remain it fails with the `CyclicImportError`
carrying all nontrivial strongly connected components, and no partial order
is returned. -/
def sortByDeploymentOrder (contracts : List Program) :
    Except ResolverError (List Program) :=
  let edges := buildEdges contracts
  let r := kahnAux edges contracts.length contracts
  if r.2.isEmpty then Except.ok r.1
  else Except.error (ResolverError.cyclicImport
    (cycleGroups edges contracts.length r.2))

/-- `Sort` first checks that every registered program is a contract (else the
not-sortable error, with the receiver untouched), then runs `ResolveImports`,
then `sortByDeploymentOrder`, and on success replaces the resolver's programs
with the sorted sequence.  The returned resolver is the mutated receiver and
the second component is the returned Go error. -/
def ImportResolver.Sort (c : ImportResolver) :
    ImportResolver × Option ResolverError :=
  if c.programs.all Program.isContract then
    match c.ResolveImports with
    | (c1, some e) => (c1, some e)
    | (c1, none) =>
        match sortByDeploymentOrder c1.programs with
        | Except.error e => (c1, some e)
        | Except.ok sorted => ({ c1 with programs := sorted }, none)
  else (c, some ResolverError.notSortable)

/-- One `Add` call's arguments: location, account address, account name,
constructor arguments. -/
structure AddCall where
  location : String
  accountAddress : Nat
  accountName : String
  args : List String
deriving DecidableEq, Repr

/-- A sequence of `Add` calls, failing as soon as one fails. -/
def runAdds (c : ImportResolver) : List AddCall → Option ImportResolver
  | [] => some c
  | a :: rest =>
      match c.Add a.location a.accountAddress a.accountName a.args with
      | none => none
      | some (_, c') => runAdds c' rest

/-! ### Specification-level relations -/

/-- The edge relation of an edge list: `Estep edges a b` holds when the graph
has the directed edge `a → b` (the program of index `b` depends on the program
of index `a`). -/
def Estep (edges : List (Nat × Nat)) (a b : Nat) : Prop :=
  (a, b) ∈ edges

/-- `a` and `b` lie in the same strongly connected component of the graph:
each reaches the other. -/
def SameSCC (edges : List (Nat × Nat)) (a b : Nat) : Prop :=
  Relation.ReflTransGen (Estep edges) a b ∧ Relation.ReflTransGen (Estep edges) b a

/-- The direct dependency relation read off a program list: `DepEdge l a b`
holds when the program of index `b` in `l` records a dependency on the program
of index `a`. -/
def DepEdge (l : List Program) (a b : Nat) : Prop :=
  ∃ c ∈ l, c.index = b ∧ ∃ loc, (loc, a) ∈ c.dependencies

/-- `P` depends on `Q`, directly or transitively, according to the dependency
records in `l`. -/
def DependsOn (l : List Program) (P Q : Program) : Prop :=
  Relation.TransGen (DepEdge l) Q.index P.index

/-- The program of index `a` appears strictly before the program of index `b`
in the list `l`. -/
def IdxBefore (l : List Program) (a b : Nat) : Prop :=
  ∃ i j : Fin l.length, i.val < j.val ∧ (l.get i).index = a ∧ (l.get j).index = b

instance idxBeforeDecidable (l : List Program) (a b : Nat) :
    Decidable (IdxBefore l a b) := by
  unfold IdxBefore
  infer_instance

/-- An import location is resolvable when it matches a registered program's
location or an alias-table key. -/
def CanResolve (byLoc : List (String × Nat)) (tbl : List (String × String))
    (loc : String) : Prop :=
  byLoc.lookup loc ≠ none ∨ tbl.lookup loc ≠ none

instance canResolveDecidable (byLoc : List (String × Nat))
    (tbl : List (String × String)) (loc : String) :
    Decidable (CanResolve byLoc tbl loc) := by
  unfold CanResolve
  infer_instance

/-- How a program after a resolution pass relates to the program before it:
identity fields are untouched and the dependency and alias records grow by
entries justified by the registry (`byLoc`) and the alias table (`tbl`)
respectively, an alias entry being recorded only for a location missing from
the registry. -/
def ResolvedFrom (byLoc : List (String × Nat)) (tbl : List (String × String))
    (p p' : Program) : Prop :=
  p'.index = p.index ∧ p'.location = p.location ∧ p'.code = p.code ∧
  p'.accountAddress = p.accountAddress ∧ p'.accountName = p.accountName ∧
  p'.args = p.args ∧ p'.name = p.name ∧
  p'.importLocations = p.importLocations ∧ p'.kind = p.kind ∧
  ∃ dNew aNew,
    p'.dependencies = p.dependencies ++ dNew ∧
    p'.aliases = p.aliases ++ aNew ∧
    (∀ e ∈ dNew, byLoc.lookup e.1 = some e.2) ∧
    (∀ e ∈ aNew, byLoc.lookup e.1 = none ∧
      ∃ s, tbl.lookup e.1 = some s ∧ e.2 = hexToAddress s)

/-- The state invariants every resolver reachable by `Add` calls from a fresh
resolver enjoys: programs carry their position as `index`, the location
registry points into the program list, and no import has been resolved yet. -/
def GoodState (c : ImportResolver) : Prop :=
  (∀ i : Fin c.programs.length, (c.programs.get i).index = i.val) ∧
  (∀ e ∈ c.programsByLocation, e.2 < c.programs.length) ∧
  (∀ p ∈ c.programs, p.dependencies = [] ∧ p.aliases = [])

/-! ### Concrete scenarios used by witnesses and counterexamples -/

/-- Scenario: linear chain, contracts `C`, `B` (imports `C`), `A` (imports
`B`), registered in that order. -/
def s1Loader : Loader := fun l =>
  if l = "C" then some "codeC" else if l = "B" then some "codeB"
  else if l = "A" then some "codeA" else none

/-- Parser for the linear-chain scenario. -/
def s1Parser : Parser := fun c =>
  if c = "codeC" then some ⟨"C", [], ProgramKind.contract⟩
  else if c = "codeB" then some ⟨"B", ["C"], ProgramKind.contract⟩
  else if c = "codeA" then some ⟨"A", ["B"], ProgramKind.contract⟩
  else none

/-- The `Add` calls of the linear-chain scenario. -/
def s1Calls : List AddCall :=
  [⟨"C", 1, "acc", []⟩, ⟨"B", 2, "acc", []⟩, ⟨"A", 3, "acc", []⟩]

/-- The registered (unresolved) programs of the linear-chain scenario. -/
def s1C : Program :=
  ⟨0, "C", "codeC", 1, "acc", [], "C", [], [], [], ProgramKind.contract⟩

/-- Program `B` of the linear-chain scenario. -/
def s1B : Program :=
  ⟨1, "B", "codeB", 2, "acc", [], "B", ["C"], [], [], ProgramKind.contract⟩

/-- Program `A` of the linear-chain scenario. -/
def s1A : Program :=
  ⟨2, "A", "codeA", 3, "acc", [], "A", ["B"], [], [], ProgramKind.contract⟩

/-- The resolver of the linear-chain scenario after the three `Add` calls. -/
def s1R : ImportResolver :=
  { programs := [s1C, s1B, s1A], loader := s1Loader, parse := s1Parser,
    aliases := [], programsByLocation := [("A", 2), ("B", 1), ("C", 0)] }

/-- `B` after resolution in the linear-chain scenario. -/
def s1B' : Program := s1B.addDependency "C" 0

/-- `A` after resolution in the linear-chain scenario. -/
def s1A' : Program := s1A.addDependency "B" 1

/-- The resolver of the linear-chain scenario after a successful `Sort`. -/
def s1R' : ImportResolver :=
  { s1R with programs := [s1C, s1B', s1A'] }

/-- Scenario: a single contract `A` importing its own location. -/
def s2Loader : Loader := fun l => if l = "A" then some "codeA" else none

/-- Parser for the self-import scenario. -/
def s2Parser : Parser := fun c =>
  if c = "codeA" then some ⟨"A", ["A"], ProgramKind.contract⟩ else none

/-- `A` as registered in the self-import scenario. -/
def s2A : Program :=
  ⟨0, "A", "codeA", 1, "acc", [], "A", ["A"], [], [], ProgramKind.contract⟩

/-- The self-import scenario resolver after its single `Add`. -/
def s2R : ImportResolver :=
  { programs := [s2A], loader := s2Loader, parse := s2Parser,
    aliases := [], programsByLocation := [("A", 0)] }

/-- Scenario: four contracts forming two disjoint two-cycles, as raw resolved
records fed straight to `sortByDeploymentOrder`. -/
def s3A : Program :=
  ⟨0, "A", "cA", 1, "a", [], "A", ["B"], [("B", 1)], [], ProgramKind.contract⟩

/-- Cycle member `B` (depends on `A`). -/
def s3B : Program :=
  ⟨1, "B", "cB", 2, "a", [], "B", ["A"], [("A", 0)], [], ProgramKind.contract⟩

/-- Cycle member `C` (depends on `D`). -/
def s3C : Program :=
  ⟨2, "C", "cC", 3, "a", [], "C", ["D"], [("D", 3)], [], ProgramKind.contract⟩

/-- Cycle member `D` (depends on `C`). -/
def s3D : Program :=
  ⟨3, "D", "cD", 4, "a", [], "D", ["C"], [("C", 2)], [], ProgramKind.contract⟩

/-- The two-disjoint-cycles input list. -/
def s3L : List Program := [s3A, s3B, s3C, s3D]

/-- Scenario: `P0` imports the later-registered `P2`; `P1` and `P2` import
nothing.  Used against the unconditional tie-break claim. -/
def s4Loader : Loader := fun l =>
  if l = "P0" then some "c0" else if l = "P1" then some "c1"
  else if l = "P2" then some "c2" else none

/-- Parser for the tie-break counterexample scenario. -/
def s4Parser : Parser := fun c =>
  if c = "c0" then some ⟨"P0", ["P2"], ProgramKind.contract⟩
  else if c = "c1" then some ⟨"P1", [], ProgramKind.contract⟩
  else if c = "c2" then some ⟨"P2", [], ProgramKind.contract⟩ else none

/-- `P0` as registered (imports `P2`). -/
def s4P0 : Program :=
  ⟨0, "P0", "c0", 1, "a", [], "P0", ["P2"], [], [], ProgramKind.contract⟩

/-- `P1` as registered. -/
def s4P1 : Program :=
  ⟨1, "P1", "c1", 2, "a", [], "P1", [], [], [], ProgramKind.contract⟩

/-- `P2` as registered. -/
def s4P2 : Program :=
  ⟨2, "P2", "c2", 3, "a", [], "P2", [], [], [], ProgramKind.contract⟩

/-- The resolver of the tie-break counterexample after its three `Add`s. -/
def s4R : ImportResolver :=
  { programs := [s4P0, s4P1, s4P2], loader := s4Loader, parse := s4Parser,
    aliases := [], programsByLocation := [("P2", 2), ("P1", 1), ("P0", 0)] }

/-- `P0` after resolution (depends on `P2`). -/
def s4P0' : Program := s4P0.addDependency "P2" 2

/-- The `Add` calls of the tie-break counterexample scenario. -/
def s4Calls : List AddCall :=
  [⟨"P0", 1, "a", []⟩, ⟨"P1", 2, "a", []⟩, ⟨"P2", 3, "a", []⟩]

/-- The resolver returned by `Sort` in the tie-break counterexample: the
unconstrained `P1` and the dependency `P2` are emitted before `P0`. -/
def s4Sorted : ImportResolver :=
  { s4R with programs := [s4P1, s4P2, s4P0'] }

/-- Scenario: contracts `A` and `B` whose imports `X` and `Y` match nothing. -/
def s5A : Program :=
  ⟨0, "A", "cA", 1, "a", [], "A", ["X"], [], [], ProgramKind.contract⟩

/-- Program `B` of the unresolved-import scenario. -/
def s5B : Program :=
  ⟨1, "B", "cB", 2, "a", [], "B", ["Y"], [], [], ProgramKind.contract⟩

/-- The unresolved-import scenario resolver (both imports unresolvable). -/
def s5R : ImportResolver :=
  { programs := [s5A, s5B], loader := fun _ => none, parse := fun _ => none,
    aliases := [], programsByLocation := [("B", 1), ("A", 0)] }

/-- Scenario: contract `A` importing `Foo`, with alias table `Foo → 0x01`. -/
def s6Loader : Loader := fun l => if l = "A" then some "codeA" else none

/-- Parser for the alias scenario. -/
def s6Parser : Parser := fun c =>
  if c = "codeA" then some ⟨"A", ["Foo"], ProgramKind.contract⟩ else none

/-- `A` as registered in the alias scenario. -/
def s6A : Program :=
  ⟨0, "A", "codeA", 1, "acc", [], "A", ["Foo"], [], [], ProgramKind.contract⟩

/-- `A` after resolution in the alias scenario: one alias record, no
dependency edge. -/
def s6A' : Program := s6A.addAlias "Foo" 1

/-- The `Add` call of the alias scenario. -/
def s6Calls : List AddCall := [⟨"A", 1, "acc", []⟩]

/-- The alias-scenario resolver after its single `Add`. -/
def s6R : ImportResolver :=
  { programs := [s6A], loader := s6Loader, parse := s6Parser,
    aliases := [("Foo", "0x01")], programsByLocation := [("A", 0)] }

/-- The alias-scenario resolver after `ResolveImports`. -/
def s6R' : ImportResolver := { s6R with programs := [s6A'] }

/-- Scenario: one contract and one script, for the not-sortable check. -/
def s7S : Program :=
  ⟨1, "S", "cS", 2, "a", [], "S", [], [], [], ProgramKind.script⟩

/-- The mixed-kinds resolver (contract `A` of scenario 5 plus script `S`). -/
def s7R : ImportResolver :=
  { programs := [s5A, s7S], loader := fun _ => none, parse := fun _ => none,
    aliases := [], programsByLocation := [("S", 1), ("A", 0)] }

/-- Scenario: the same location `A` added twice. -/
def s8Loader : Loader := fun l => if l = "A" then some "codeA" else none

/-- Parser for the duplicate-location scenario. -/
def s8Parser : Parser := fun c =>
  if c = "codeA" then some ⟨"A", [], ProgramKind.contract⟩ else none

/-- Empty resolver for the duplicate-location scenario. -/
def s8R0 : ImportResolver := NewImportResolver s8Loader s8Parser []

/-- First registration of location `A`. -/
def s8A1 : Program :=
  ⟨0, "A", "codeA", 1, "a1", [], "A", [], [], [], ProgramKind.contract⟩

/-- Second registration of the same location `A`. -/
def s8A2 : Program :=
  ⟨1, "A", "codeA", 2, "a2", [], "A", [], [], [], ProgramKind.contract⟩

/-- Resolver state after the first duplicate-location `Add`. -/
def s8R1 : ImportResolver :=
  { programs := [s8A1], loader := s8Loader, parse := s8Parser, aliases := [],
    programsByLocation := [("A", 0)] }

/-- Resolver state after the second duplicate-location `Add`. -/
def s8R2 : ImportResolver :=
  { programs := [s8A1, s8A2], loader := s8Loader, parse := s8Parser,
    aliases := [], programsByLocation := [("A", 1), ("A", 0)] }

/-! ### Facts about minimum selection and readiness -/

theorem minf_eq_or (a b : Program) : minf a b = a ∨ minf a b = b := by
  unfold minf; split <;> simp

theorem minf_le_left (a b : Program) : (minf a b).index ≤ a.index := by
  unfold minf; split <;> omega

theorem minf_le_right (a b : Program) : (minf a b).index ≤ b.index := by
  unfold minf; split <;> omega

theorem foldl_minf_mem (ps : List Program) (a : Program) :
    ps.foldl minf a ∈ a :: ps := by
  induction ps generalizing a with
  | nil => simp
  | cons p ps ih =>
    have h := ih (minf a p)
    rcases List.mem_cons.mp h with h | h
    · rw [List.foldl_cons, h]
      rcases minf_eq_or a p with h' | h' <;> rw [h'] <;> simp
    · simp only [List.foldl_cons]
      exact List.mem_cons_of_mem _ (List.mem_cons_of_mem _ h)

theorem foldl_minf_min (ps : List Program) (a : Program) :
    (ps.foldl minf a).index ≤ a.index ∧
      ∀ q ∈ ps, (ps.foldl minf a).index ≤ q.index := by
  induction ps generalizing a with
  | nil => simp
  | cons p ps ih =>
    have h := ih (minf a p)
    simp only [List.foldl_cons]
    refine ⟨le_trans h.1 (minf_le_left a p), ?_⟩
    intro q hq
    rcases List.mem_cons.mp hq with rfl | hq
    · exact le_trans h.1 (minf_le_right a q)
    · exact h.2 q hq

theorem pickMin_mem {l : List Program} {p : Program} (h : pickMin l = some p) :
    p ∈ l := by
  cases l with
  | nil => simp [pickMin] at h
  | cons a ps =>
    simp only [pickMin, Option.some.injEq] at h
    rw [← h]
    exact foldl_minf_mem ps a

theorem pickMin_min {l : List Program} {p : Program} (h : pickMin l = some p) :
    ∀ q ∈ l, p.index ≤ q.index := by
  cases l with
  | nil => simp [pickMin] at h
  | cons a ps =>
    simp only [pickMin, Option.some.injEq] at h
    intro q hq
    rcases List.mem_cons.mp hq with rfl | hq
    · rw [← h]; exact (foldl_minf_min ps q).1
    · rw [← h]; exact (foldl_minf_min ps a).2 q hq

theorem pickMin_eq_none {l : List Program} (h : pickMin l = none) : l = [] := by
  cases l with
  | nil => rfl
  | cons a ps => simp [pickMin] at h

theorem isReady_iff {edges : List (Nat × Nat)} {rem : List Program}
    {p : Program} :
    isReady edges rem p = true ↔ ∀ q ∈ rem, (q.index, p.index) ∉ edges := by
  simp [isReady, List.any_eq_true]

/-! ### The Kahn loop: permutation and edge-respecting output -/

theorem kahnAux_zero (edges : List (Nat × Nat)) (rem : List Program) :
    kahnAux edges 0 rem = ([], rem) := rfl

theorem kahnAux_succ_none (edges : List (Nat × Nat)) (f : Nat)
    (rem : List Program)
    (h : pickMin (rem.filter (isReady edges rem)) = none) :
    kahnAux edges (f + 1) rem = ([], rem) := by
  simp only [kahnAux, h]

theorem kahnAux_succ_some (edges : List (Nat × Nat)) (f : Nat)
    (rem : List Program) (p : Program)
    (h : pickMin (rem.filter (isReady edges rem)) = some p) :
    kahnAux edges (f + 1) rem =
      (p :: (kahnAux edges f (rem.erase p)).1,
       (kahnAux edges f (rem.erase p)).2) := by
  simp only [kahnAux, h]

theorem kahn_perm (edges : List (Nat × Nat)) :
    ∀ (f : Nat) (rem : List Program),
      ((kahnAux edges f rem).1 ++ (kahnAux edges f rem).2).Perm rem := by
  intro f
  induction f with
  | zero => intro rem; simp [kahnAux_zero]
  | succ f ih =>
    intro rem
    cases hpm : pickMin (rem.filter (isReady edges rem)) with
    | none => rw [kahnAux_succ_none edges f rem hpm]; simp
    | some p =>
      rw [kahnAux_succ_some edges f rem p hpm]
      have hpmem : p ∈ rem :=
        List.mem_of_mem_filter (pickMin_mem hpm)
      simp only [List.cons_append]
      exact ((ih (rem.erase p)).cons p).trans (List.perm_cons_erase hpmem).symm

theorem kahn_respects (edges : List (Nat × Nat)) :
    ∀ (f : Nat) (rem : List Program) (pre post : List Program) (pb : Program),
      (kahnAux edges f rem).1 = pre ++ pb :: post →
      ∀ q ∈ rem, (q.index, pb.index) ∈ edges → q ∈ pre := by
  intro f
  induction f with
  | zero =>
    intro rem pre post pb hout
    rw [kahnAux_zero] at hout
    exact absurd hout (by simp)
  | succ f ih =>
    intro rem pre post pb hout q hq hedge
    cases hpm : pickMin (rem.filter (isReady edges rem)) with
    | none =>
      rw [kahnAux_succ_none edges f rem hpm] at hout
      exact absurd hout (by simp)
    | some p =>
      rw [kahnAux_succ_some edges f rem p hpm] at hout
      have hready : isReady edges rem p = true :=
        (List.mem_filter.mp (pickMin_mem hpm)).2
      cases pre with
      | nil =>
        simp only [List.nil_append, List.cons.injEq] at hout
        rw [hout.1] at hready
        exact absurd hedge (isReady_iff.mp hready q hq)
      | cons x pre' =>
        simp only [List.cons_append, List.cons.injEq] at hout
        by_cases hqp : q = p
        · rw [hqp, ← hout.1]
          exact List.mem_cons_self p pre'
        · have hq' : q ∈ rem.erase p := (List.mem_erase_of_ne hqp).mpr hq
          exact List.mem_cons_of_mem x (ih (rem.erase p) pre' post pb hout.2 q hq' hedge)

/-! ### Positions in the sorted output -/

theorem decomp_at (l : List Program) (j : Fin l.length) :
    l = l.take j.val ++ l.get j :: l.drop (j.val + 1) := by
  conv_lhs => rw [← List.take_append_drop j.val l]
  congr 1
  rw [List.get_eq_getElem, List.drop_eq_getElem_cons j.2]

theorem mem_take_pos {l : List Program} {q : Program} {n : Nat}
    (h : q ∈ l.take n) :
    ∃ i : Fin l.length, i.val < n ∧ l.get i = q := by
  rcases List.mem_take_iff_getElem.mp h with ⟨i, hm, hi⟩
  have h1 : i < n := lt_of_lt_of_le hm (min_le_left _ _)
  have h2 : i < l.length := lt_of_lt_of_le hm (min_le_right _ _)
  exact ⟨⟨i, h2⟩, h1, by simpa using hi⟩

theorem index_get_inj {l : List Program}
    (h : (l.map Program.index).Nodup) {i j : Fin l.length}
    (hij : (l.get i).index = (l.get j).index) : i = j := by
  have hnd : l.Nodup := List.Nodup.of_map _ h
  have heq : l.get i = l.get j :=
    List.inj_on_of_nodup_map h (l.get_mem i.val i.2) (l.get_mem j.val j.2) hij
  exact List.nodup_iff_injective_get.mp hnd heq

theorem kahn_edge_before (edges : List (Nat × Nat)) (f : Nat)
    (rem : List Program) {a b : Nat}
    (hedge : (a, b) ∈ edges) (ha : ∃ q ∈ rem, q.index = a)
    (j : Fin (kahnAux edges f rem).1.length)
    (hjb : (((kahnAux edges f rem).1.get j)).index = b) :
    ∃ i : Fin (kahnAux edges f rem).1.length,
      i.val < j.val ∧ ((kahnAux edges f rem).1.get i).index = a := by
  rcases ha with ⟨q, hq, hqa⟩
  have hdec := decomp_at (kahnAux edges f rem).1 j
  have hmem : q ∈ (kahnAux edges f rem).1.take j.val := by
    refine kahn_respects edges f rem _ _ _ hdec q hq ?_
    rw [hqa, hjb]
    exact hedge
  rcases mem_take_pos hmem with ⟨i, hi, hiq⟩
  exact ⟨i, hi, by rw [hiq, hqa]⟩

theorem kahn_out_perm (edges : List (Nat × Nat)) (f : Nat)
    (rem : List Program) (hsucc : (kahnAux edges f rem).2 = []) :
    (kahnAux edges f rem).1.Perm rem := by
  have h := kahn_perm edges f rem
  rwa [hsucc, List.append_nil] at h

theorem kahn_transGen_before (edges : List (Nat × Nat)) (f : Nat)
    (rem : List Program)
    (hsucc : (kahnAux edges f rem).2 = [])
    (hNodup : (rem.map Program.index).Nodup)
    (hEnd1 : ∀ a b : Nat, (a, b) ∈ edges → ∃ p ∈ rem, p.index = a)
    (hEnd2 : ∀ a b : Nat, (a, b) ∈ edges → ∃ p ∈ rem, p.index = b)
    {a b : Nat} (h : Relation.TransGen (Estep edges) a b) :
    IdxBefore (kahnAux edges f rem).1 a b := by
  have hperm := kahn_out_perm edges f rem hsucc
  have hNodup' : ((kahnAux edges f rem).1.map Program.index).Nodup :=
    ((hperm.map Program.index).nodup_iff).mpr hNodup
  induction h with
  | single hab =>
    rcases hEnd2 _ _ hab with ⟨pb, hpb, hpbi⟩
    rcases List.mem_iff_get.mp (hperm.mem_iff.mpr hpb) with ⟨j, hj⟩
    have hjb := (congrArg Program.index hj).trans hpbi
    rcases kahn_edge_before edges f rem hab (hEnd1 _ _ hab) j hjb with ⟨i, hij, hia⟩
    exact ⟨i, j, hij, hia, hjb⟩
  | tail hab hbc ih =>
    rcases ih with ⟨i, j, hij, hia, hjb⟩
    rcases hEnd2 _ _ hbc with ⟨pc, hpc, hpci⟩
    rcases List.mem_iff_get.mp (hperm.mem_iff.mpr hpc) with ⟨k, hk⟩
    have hkc := (congrArg Program.index hk).trans hpci
    rcases kahn_edge_before edges f rem hbc (hEnd1 _ _ hbc) k hkc
      with ⟨i', hik, hib⟩
    have hji' : j = i' := index_get_inj hNodup' (by rw [hjb, hib])
    have hv : j.val = i'.val := congrArg Fin.val hji'
    exact ⟨i, k, by omega, hia, hkc⟩

theorem idxBefore_cons {p : Program} {l : List Program} {a b : Nat}
    (h : IdxBefore l a b) : IdxBefore (p :: l) a b := by
  rcases h with ⟨i, j, hij, hi, hj⟩
  refine ⟨⟨i.val + 1, Nat.succ_lt_succ i.2⟩, ⟨j.val + 1, Nat.succ_lt_succ j.2⟩,
    Nat.succ_lt_succ hij, ?_, ?_⟩
  · simpa [List.get_cons_succ] using hi
  · simpa [List.get_cons_succ] using hj

theorem idxBefore_head {p : Program} {l : List Program} {b : Nat}
    (hb : ∃ x ∈ l, x.index = b) : IdxBefore (p :: l) p.index b := by
  rcases hb with ⟨x, hx, hxb⟩
  rcases List.mem_iff_get.mp hx with ⟨j, hj⟩
  refine ⟨⟨0, Nat.succ_pos _⟩, ⟨j.val + 1, Nat.succ_lt_succ j.2⟩,
    Nat.succ_pos _, rfl, ?_⟩
  have h := (congrArg Program.index hj).trans hxb
  simpa [List.get_cons_succ] using h

/-! ### The minimum-index selection rule -/

theorem unready_has_pred {edges : List (Nat × Nat)} {rem : List Program}
    {s : Program} (h : ¬isReady edges rem s = true) :
    ∃ q ∈ rem, (q.index, s.index) ∈ edges := by
  simp only [isReady, Bool.not_eq_true, Bool.not_eq_false', List.any_eq_true,
    decide_eq_true_eq] at h
  exact h

theorem kahn_exists_ready (edges : List (Nat × Nat)) (f : Nat)
    (rem : List Program) (hsucc : (kahnAux edges f rem).2 = [])
    (S : Nat → Prop)
    (hclosed : ∀ x y : Nat, (x, y) ∈ edges → S y → S x)
    (q0 : Program) (hq0 : q0 ∈ rem) (hS0 : S q0.index) :
    ∃ t ∈ rem, S t.index ∧ isReady edges rem t = true := by
  have hperm := kahn_out_perm edges f rem hsucc
  suffices H : ∀ n : Nat, ∀ s, s ∈ rem → S s.index →
      (∃ j : Fin (kahnAux edges f rem).1.length, j.val = n ∧
        (kahnAux edges f rem).1.get j = s) →
      ∃ t ∈ rem, S t.index ∧ isReady edges rem t = true by
    rcases List.mem_iff_get.mp (hperm.mem_iff.mpr hq0) with ⟨j, hj⟩
    exact H j.val q0 hq0 hS0 ⟨j, rfl, hj⟩
  intro n
  induction n using Nat.strong_induction_on with
  | _ n ihn =>
    intro s hs hSs hpos
    by_cases hr : isReady edges rem s = true
    · exact ⟨s, hs, hSs, hr⟩
    · rcases unready_has_pred hr with ⟨q, hqrem, hqe⟩
      rcases hpos with ⟨j, hjn, hjs⟩
      have hdec := decomp_at (kahnAux edges f rem).1 j
      have hqtake : q ∈ (kahnAux edges f rem).1.take j.val := by
        refine kahn_respects edges f rem _ _ _ hdec q hqrem ?_
        rw [hjs]; exact hqe
      rcases mem_take_pos hqtake with ⟨i, hi, hiq⟩
      exact ihn i.val (by omega) q hqrem (hclosed _ _ hqe hSs) ⟨i, rfl, hiq⟩

theorem kahn_min_stable (edges : List (Nat × Nat)) :
    ∀ (f : Nat) (rem : List Program),
      (kahnAux edges f rem).2 = [] →
      ∀ P Q : Program, P ∈ rem → Q ∈ rem →
        Q.index < P.index →
        (∀ c : Nat, Relation.TransGen (Estep edges) c Q.index → c < P.index) →
        IdxBefore (kahnAux edges f rem).1 Q.index P.index := by
  intro f
  induction f with
  | zero =>
    intro rem hsucc P Q hP hQ _ _
    rw [kahnAux_zero] at hsucc
    simp only at hsucc
    rw [hsucc] at hP
    exact absurd hP (List.not_mem_nil P)
  | succ f ih =>
    intro rem hsucc P Q hP hQ hIdx hTD
    cases hpm : pickMin (rem.filter (isReady edges rem)) with
    | none =>
      have h2 := hsucc
      rw [kahnAux_succ_none edges f rem hpm] at h2
      simp only at h2
      rw [h2] at hP
      exact absurd hP (List.not_mem_nil P)
    | some p =>
      have hsucc2 : (kahnAux edges f (rem.erase p)).2 = [] := by
        have h2 := hsucc
        rw [kahnAux_succ_some edges f rem p hpm] at h2
        exact h2
      rw [kahnAux_succ_some edges f rem p hpm]
      simp only
      by_cases hpQ : p = Q
      · subst hpQ
        have hPne : P ≠ p := by
          intro h; rw [h] at hIdx; omega
        have hPmem : P ∈ rem.erase p := (List.mem_erase_of_ne hPne).mpr hP
        have hPout : P ∈ (kahnAux edges f (rem.erase p)).1 :=
          (kahn_out_perm edges f (rem.erase p) hsucc2).mem_iff.mpr hPmem
        exact idxBefore_head ⟨P, hPout, rfl⟩
      · by_cases hpP : p = P
        · exfalso
          obtain ⟨t, htrem, htS, htready⟩ :=
            kahn_exists_ready edges (f + 1) rem hsucc
              (fun c => c = Q.index ∨ Relation.TransGen (Estep edges) c Q.index)
              (by
                intro x y he hy
                rcases hy with hy | hy
                · exact Or.inr (Relation.TransGen.single (by rwa [hy] at he))
                · exact Or.inr (Relation.TransGen.head he hy))
              Q hQ (Or.inl rfl)
          have htlt : t.index < P.index := by
            rcases htS with h | h
            · rw [h]; exact hIdx
            · exact hTD t.index h
          have hmin := pickMin_min hpm t (List.mem_filter.mpr ⟨htrem, htready⟩)
          rw [hpP] at hmin
          omega
        · have hPmem : P ∈ rem.erase p :=
            (List.mem_erase_of_ne (fun h => hpP h.symm)).mpr hP
          have hQmem : Q ∈ rem.erase p :=
            (List.mem_erase_of_ne (fun h => hpQ h.symm)).mpr hQ
          exact idxBefore_cons
            (ih (rem.erase p) hsucc2 P Q hPmem hQmem hIdx hTD)

/-! ### Cyclic nodes survive into the residual -/

theorem kahn_cyclic_stays (edges : List (Nat × Nat)) :
    ∀ (f : Nat) (rem : List Program),
      (∀ a, Relation.TransGen (Estep edges) a a → ∃ p ∈ rem, p.index = a) →
      ∀ a, Relation.TransGen (Estep edges) a a →
        ∃ p ∈ (kahnAux edges f rem).2, p.index = a := by
  intro f
  induction f with
  | zero => intro rem hcyc a ha; rw [kahnAux_zero]; exact hcyc a ha
  | succ f ih =>
    intro rem hcyc a ha
    cases hpm : pickMin (rem.filter (isReady edges rem)) with
    | none => rw [kahnAux_succ_none edges f rem hpm]; exact hcyc a ha
    | some p =>
      rw [kahnAux_succ_some edges f rem p hpm]
      have hready : isReady edges rem p = true :=
        (List.mem_filter.mp (pickMin_mem hpm)).2
      have hpnc : ∀ b, Relation.TransGen (Estep edges) b b → p.index ≠ b := by
        intro b hb hpb
        rcases Relation.TransGen.tail'_iff.mp hb with ⟨c, hbc, hcb⟩
        have hcc : Relation.TransGen (Estep edges) c c :=
          Relation.TransGen.head' hcb hbc
        rcases hcyc c hcc with ⟨pc, hpcrem, hpci⟩
        have : (pc.index, p.index) ∈ edges := by
          rw [hpci, hpb]; exact hcb
        exact isReady_iff.mp hready pc hpcrem this
      refine ih (rem.erase p) ?_ a ha
      intro b hb
      rcases hcyc b hb with ⟨pb, hpbrem, hpbi⟩
      have hpbp : pb ≠ p := by
        intro h
        exact hpnc b hb (by rw [← h, hpbi])
      exact ⟨pb, (List.mem_erase_of_ne hpbp).mpr hpbrem, hpbi⟩

theorem kahn_res_subset (edges : List (Nat × Nat)) (f : Nat)
    (rem : List Program) : ∀ x ∈ (kahnAux edges f rem).2, x ∈ rem := by
  intro x hx
  exact (kahn_perm edges f rem).mem_iff.mp (List.mem_append_right _ hx)

theorem kahn_res_nodup (edges : List (Nat × Nat)) (f : Nat)
    (rem : List Program) (h : rem.Nodup) : (kahnAux edges f rem).2.Nodup := by
  have hperm := kahn_perm edges f rem
  have : ((kahnAux edges f rem).1 ++ (kahnAux edges f rem).2).Nodup :=
    hperm.nodup_iff.mpr h
  exact (List.sublist_append_right _ _).nodup this

/-! ### Bounded reachability: soundness and adequacy -/

theorem reachb_refl (edges : List (Nat × Nat)) (f a : Nat) :
    reachb edges f a a = true := by
  cases f <;> simp [reachb]

theorem reachb_sound (edges : List (Nat × Nat)) :
    ∀ (f : Nat) {a b : Nat}, reachb edges f a b = true →
      Relation.ReflTransGen (Estep edges) a b := by
  intro f
  induction f with
  | zero =>
    intro a b h
    simp only [reachb, beq_iff_eq] at h
    rw [h]
  | succ f ih =>
    intro a b h
    simp only [reachb, Bool.or_eq_true, beq_iff_eq, List.any_eq_true,
      Bool.and_eq_true] at h
    rcases h with rfl | ⟨e, he, hea, hr⟩
    · rfl
    · have hstep : Estep edges a e.2 := by
        show (a, e.2) ∈ edges
        rw [← hea, Prod.mk.eta]
        exact he
      exact Relation.ReflTransGen.head hstep (ih hr)

theorem reachb_step (edges : List (Nat × Nat)) (f : Nat) {a b c : Nat}
    (he : (a, c) ∈ edges) (h : reachb edges f c b = true) :
    reachb edges (f + 1) a b = true := by
  simp only [reachb, Bool.or_eq_true, beq_iff_eq, List.any_eq_true,
    Bool.and_eq_true]
  exact Or.inr ⟨(a, c), he, by simp, h⟩

theorem reachb_succ (edges : List (Nat × Nat)) :
    ∀ (f : Nat) {a b : Nat}, reachb edges f a b = true →
      reachb edges (f + 1) a b = true := by
  intro f
  induction f with
  | zero =>
    intro a b h
    simp only [reachb, beq_iff_eq] at h
    simp [reachb, h]
  | succ f ih =>
    intro a b h
    simp only [reachb, Bool.or_eq_true, beq_iff_eq, List.any_eq_true,
      Bool.and_eq_true] at h
    rcases h with rfl | ⟨e, he, hea, hr⟩
    · exact reachb_refl edges _ a
    · refine reachb_step edges (f + 1) ?_ (ih hr)
      rw [← hea, Prod.mk.eta]
      exact he

theorem chain_reachb (edges : List (Nat × Nat)) :
    ∀ (ch : List Nat) (a : Nat) (f : Nat),
      List.Chain (Estep edges) a ch → ch.length ≤ f →
      reachb edges f a ((a :: ch).getLast (List.cons_ne_nil a ch)) = true := by
  intro ch
  induction ch with
  | nil =>
    intro a f _ _
    simp only [List.getLast_singleton]
    exact reachb_refl edges f a
  | cons c ch ih =>
    intro a f hch hlen
    cases f with
    | zero => simp at hlen
    | succ f =>
      rcases List.chain_cons.mp hch with ⟨hac, hcch⟩
      rw [List.getLast_cons_cons]
      simp only [reachb, Bool.or_eq_true, beq_iff_eq, List.any_eq_true,
        Bool.and_eq_true]
      refine Or.inr ⟨(a, c), hac, by simp, ?_⟩
      have := ih c f hcch (by simpa using hlen)
      exact this

theorem chain_mem_target {r : Nat → Nat → Prop} :
    ∀ (ch : List Nat) (a : Nat), List.Chain r a ch →
      ∀ x ∈ ch, ∃ y, r y x := by
  intro ch
  induction ch with
  | nil => intro a _ x hx; exact absurd hx (List.not_mem_nil x)
  | cons c ch ih =>
    intro a hch x hx
    rcases List.chain_cons.mp hch with ⟨hac, hcch⟩
    rcases List.mem_cons.mp hx with rfl | hx
    · exact ⟨a, hac⟩
    · exact ih c hcch x hx

theorem exists_dup_split {l : List Nat} (h : ¬l.Nodup) :
    ∃ s x t, l = s ++ x :: t ∧ x ∈ t := by
  induction l with
  | nil => exact absurd List.nodup_nil h
  | cons y l' ih =>
    by_cases hy : y ∈ l'
    · exact ⟨[], y, l', rfl, hy⟩
    · have h' : ¬l'.Nodup := fun hnd => h (List.nodup_cons.mpr ⟨hy, hnd⟩)
      rcases ih h' with ⟨s, x, t, hst, hxt⟩
      exact ⟨y :: s, x, t, by rw [hst]; rfl, hxt⟩

theorem chain'_cut {r : Nat → Nat → Prop} (s t₁ t₂ : List Nat) (x : Nat)
    (h : List.Chain' r (s ++ x :: (t₁ ++ x :: t₂))) :
    List.Chain' r (s ++ x :: t₂) := by
  rcases List.chain'_append.mp h with ⟨hs, hx, hlink⟩
  have hx1 : List.Chain' r ((x :: t₁) ++ x :: t₂) := by simpa using hx
  have hx2 : List.Chain' r (x :: t₂) := (List.chain'_append.mp hx1).2.1
  refine List.chain'_append.mpr ⟨hs, hx2, ?_⟩
  intro a ha b hb
  exact hlink a ha b (by simpa using hb)

theorem chain'_shorten {r : Nat → Nat → Prop} :
    ∀ (n : Nat) (L : List Nat), L.length ≤ n → List.Chain' r L →
      ∃ L', List.Chain' r L' ∧ L'.Nodup ∧ L'.head? = L.head? ∧
        L'.getLast? = L.getLast? ∧ (∀ x ∈ L', x ∈ L) := by
  intro n
  induction n with
  | zero =>
    intro L hlen hch
    have : L = [] := List.length_eq_zero.mp (Nat.le_zero.mp hlen)
    subst this
    exact ⟨[], List.chain'_nil, List.nodup_nil, rfl, rfl, by simp⟩
  | succ n ihn =>
    intro L hlen hch
    by_cases hnd : L.Nodup
    · exact ⟨L, hch, hnd, rfl, rfl, fun x hx => hx⟩
    · rcases exists_dup_split hnd with ⟨s, x, t, hst, hxt⟩
      rcases List.append_of_mem hxt with ⟨t₁, t₂, ht⟩
      subst ht
      subst hst
      have hM : List.Chain' r (s ++ x :: t₂) := chain'_cut s t₁ t₂ x hch
      have hMlen : (s ++ x :: t₂).length ≤ n := by
        simp only [List.length_append, List.length_cons] at hlen ⊢
        omega
      rcases ihn (s ++ x :: t₂) hMlen hM with ⟨L', hc, hnd', hhead, hlast, hsub⟩
      refine ⟨L', hc, hnd', ?_, ?_, ?_⟩
      · rw [hhead]
        cases s with
        | nil => rfl
        | cons c s' => rfl
      · rw [hlast]
        rw [show s ++ x :: (t₁ ++ x :: t₂) = (s ++ x :: t₁) ++ (x :: t₂) by
          simp]
        rw [List.getLast?_append_of_ne_nil _ (List.cons_ne_nil x t₂),
          List.getLast?_append_of_ne_nil _ (List.cons_ne_nil x t₂)]
      · intro y hy
        have := hsub y hy
        simp only [List.mem_append, List.mem_cons] at this ⊢
        tauto

theorem reach_complete (edges : List (Nat × Nat)) (idxs : List Nat)
    (hEnd2 : ∀ a b : Nat, (a, b) ∈ edges → b ∈ idxs)
    {a b : Nat} (ha : a ∈ idxs)
    (h : Relation.ReflTransGen (Estep edges) a b) :
    reachb edges idxs.length a b = true := by
  rcases List.exists_chain_of_relationReflTransGen h with ⟨ch, hch, hlast⟩
  have hmem : ∀ x ∈ a :: ch, x ∈ idxs := by
    intro x hx
    rcases List.mem_cons.mp hx with rfl | hx
    · exact ha
    · rcases chain_mem_target ch a hch x hx with ⟨y, hy⟩
      exact hEnd2 _ _ hy
  have hch' : List.Chain' (Estep edges) (a :: ch) := hch
  rcases chain'_shorten (a :: ch).length (a :: ch) le_rfl hch'
    with ⟨L', hc, hnd, hhead, hlast', hsub⟩
  cases L' with
  | nil => exact absurd hhead.symm (by simp)
  | cons a' ch' =>
    have ha' : a' = a := by
      simpa using hhead
    subst ha'
    have hlen : ch'.length + 1 ≤ idxs.length := by
      have h1 : (a' :: ch').toFinset.card = (a' :: ch').length :=
        List.toFinset_card_of_nodup hnd
      have h2 : (a' :: ch').toFinset ⊆ idxs.toFinset := by
        intro y hy
        rw [List.mem_toFinset] at hy ⊢
        exact hmem y (hsub y hy)
      have h3 := Finset.card_le_card h2
      have h4 := List.toFinset_card_le idxs
      simp only [List.length_cons] at h1
      omega
    have hgl : (a' :: ch').getLast (List.cons_ne_nil a' ch') = b := by
      have e1 : (a' :: ch').getLast? =
          some ((a' :: ch').getLast (List.cons_ne_nil a' ch')) :=
        List.getLast?_eq_getLast _ _
      have e2 : (a' :: ch).getLast? = some b := by
        rw [List.getLast?_eq_getLast _ (List.cons_ne_nil a' ch), hlast]
      rw [hlast', e2] at e1
      exact (Option.some.inj e1).symm
    have hchain : List.Chain (Estep edges) a' ch' := hc
    have := chain_reachb edges ch' a' idxs.length hchain (by omega)
    rwa [hgl] at this

theorem sameSCCb_iff (edges : List (Nat × Nat)) (l : List Program)
    (hEnd2 : ∀ a b : Nat, (a, b) ∈ edges → ∃ p ∈ l, p.index = b)
    {a b : Nat} (ha : ∃ p ∈ l, p.index = a) (hb : ∃ p ∈ l, p.index = b) :
    sameSCCb edges l.length a b = true ↔ SameSCC edges a b := by
  have hlen : (l.map Program.index).length = l.length := List.length_map _ _
  have hEnd2' : ∀ x y : Nat, (x, y) ∈ edges → y ∈ l.map Program.index := by
    intro x y hxy
    rcases hEnd2 x y hxy with ⟨p, hp, hpi⟩
    exact List.mem_map.mpr ⟨p, hp, hpi⟩
  have ha' : a ∈ l.map Program.index := by
    rcases ha with ⟨p, hp, hpi⟩
    exact List.mem_map.mpr ⟨p, hp, hpi⟩
  have hb' : b ∈ l.map Program.index := by
    rcases hb with ⟨p, hp, hpi⟩
    exact List.mem_map.mpr ⟨p, hp, hpi⟩
  constructor
  · intro h
    simp only [sameSCCb, Bool.and_eq_true] at h
    exact ⟨reachb_sound edges _ h.1, reachb_sound edges _ h.2⟩
  · intro h
    rcases h with ⟨h1, h2⟩
    have r1 := reach_complete edges (l.map Program.index) hEnd2' ha' h1
    have r2 := reach_complete edges (l.map Program.index) hEnd2' hb' h2
    rw [hlen] at r1 r2
    simp only [sameSCCb, Bool.and_eq_true]
    exact ⟨r1, r2⟩

/-! ### The reported cycle groups -/

theorem sameSCCb_refl (edges : List (Nat × Nat)) (f a : Nat) :
    sameSCCb edges f a a = true := by
  simp [sameSCCb, reachb_refl]

theorem SameSCC.symm' {edges : List (Nat × Nat)} {a b : Nat}
    (h : SameSCC edges a b) : SameSCC edges b a := ⟨h.2, h.1⟩

theorem SameSCC.trans' {edges : List (Nat × Nat)} {a b c : Nat}
    (h1 : SameSCC edges a b) (h2 : SameSCC edges b c) : SameSCC edges a c :=
  ⟨h1.1.trans h2.1, h2.2.trans h1.2⟩

theorem mem_sccOf {edges : List (Nat × Nat)} {f : Nat} {res : List Program}
    {p q : Program} :
    q ∈ sccOf edges f res p ↔
      q ∈ res ∧ sameSCCb edges f p.index q.index = true := by
  simp [sccOf, List.mem_filter]

theorem isCycleRep_iff {edges : List (Nat × Nat)} {f : Nat}
    {res : List Program} {p : Program} :
    isCycleRep edges f res p = true ↔
      (sccOf edges f res p).head? = some p ∧
        (1 < (sccOf edges f res p).length ∨ (p.index, p.index) ∈ edges) := by
  simp [isCycleRep, Bool.and_eq_true, Bool.or_eq_true, decide_eq_true_eq]

theorem mem_cycleGroups {edges : List (Nat × Nat)} {f : Nat}
    {res : List Program} {g : List Program} :
    g ∈ cycleGroups edges f res ↔
      ∃ p ∈ res, isCycleRep edges f res p = true ∧ g = sccOf edges f res p := by
  simp only [cycleGroups, List.mem_map, List.mem_filter]
  constructor
  · rintro ⟨p, ⟨hp, hrep⟩, rfl⟩
    exact ⟨p, hp, hrep, rfl⟩
  · rintro ⟨p, hp, hrep, rfl⟩
    exact ⟨p, ⟨hp, hrep⟩, rfl⟩

theorem exists_ne_of_one_lt_length {g : List Program} (h : 1 < g.length)
    (hnd : g.Nodup) {q : Program} : q ∈ g → ∃ q' ∈ g, q' ≠ q := by
  intro hq
  cases g with
  | nil => simp at h
  | cons x t =>
    cases t with
    | nil => simp at h
    | cons y t' =>
      have hxy : x ≠ y := by
        intro h'
        exact (List.nodup_cons.mp hnd).1 (h' ▸ List.mem_cons_self y t')
      by_cases hxq : x = q
      · exact ⟨y, by simp, fun h' => hxy (by rw [hxq, h'])⟩
      · exact ⟨x, by simp, hxq⟩

theorem one_lt_length_of_two_mem {g : List Program} {x y : Program}
    (hx : x ∈ g) (hy : y ∈ g) (hne : x ≠ y) : 1 < g.length := by
  cases g with
  | nil => cases hx
  | cons a t =>
    cases t with
    | nil =>
      simp only [List.mem_singleton] at hx hy
      exact absurd (hx.trans hy.symm) hne
    | cons b t' => simp [List.length_cons]

theorem group_members_cyclic {edges : List (Nat × Nat)} {l res : List Program}
    (hNodup : (l.map Program.index).Nodup)
    (hEnd2 : ∀ a b : Nat, (a, b) ∈ edges → ∃ p ∈ l, p.index = b)
    (hResSub : ∀ x ∈ res, x ∈ l) (hResNodup : res.Nodup)
    {p : Program} (hp : p ∈ res)
    (hrep : isCycleRep edges l.length res p = true)
    {q : Program} (hq : q ∈ sccOf edges l.length res p) :
    q ∈ l ∧ Relation.TransGen (Estep edges) q.index q.index := by
  obtain ⟨hqres, hqscc⟩ := mem_sccOf.mp hq
  have hql : q ∈ l := hResSub _ hqres
  have hpl : p ∈ l := hResSub _ hp
  have hSpq : SameSCC edges p.index q.index :=
    (sameSCCb_iff edges l hEnd2 ⟨p, hpl, rfl⟩ ⟨q, hql, rfl⟩).mp hqscc
  refine ⟨hql, ?_⟩
  rcases (isCycleRep_iff.mp hrep).2 with hlen | hself
  · obtain ⟨q', hq', hne⟩ :=
      exists_ne_of_one_lt_length hlen (hResNodup.filter _) hq
    obtain ⟨hq'res, hq'scc⟩ := mem_sccOf.mp hq'
    have hq'l : q' ∈ l := hResSub _ hq'res
    have hSpq' : SameSCC edges p.index q'.index :=
      (sameSCCb_iff edges l hEnd2 ⟨p, hpl, rfl⟩ ⟨q', hq'l, rfl⟩).mp hq'scc
    have hSqq' : SameSCC edges q.index q'.index := hSpq.symm'.trans' hSpq'
    have hne' : q.index ≠ q'.index := by
      intro h
      exact hne (List.inj_on_of_nodup_map hNodup hq'l hql h.symm)
    rcases Relation.reflTransGen_iff_eq_or_transGen.mp hSqq'.1 with h | h
    · exact absurd h (Ne.symm hne')
    · exact Relation.TransGen.trans_left h hSqq'.2
  · have t1 : Relation.TransGen (Estep edges) p.index p.index :=
      Relation.TransGen.single hself
    exact Relation.TransGen.trans_right hSpq.2
      (Relation.TransGen.trans_left t1 hSpq.1)

theorem group_same_scc {edges : List (Nat × Nat)} {l res : List Program}
    (hEnd2 : ∀ a b : Nat, (a, b) ∈ edges → ∃ p ∈ l, p.index = b)
    (hResSub : ∀ x ∈ res, x ∈ l)
    {p : Program} (hp : p ∈ res)
    {q1 q2 : Program} (hq1 : q1 ∈ sccOf edges l.length res p)
    (hq2 : q2 ∈ sccOf edges l.length res p) :
    SameSCC edges q1.index q2.index := by
  obtain ⟨hq1res, hq1scc⟩ := mem_sccOf.mp hq1
  obtain ⟨hq2res, hq2scc⟩ := mem_sccOf.mp hq2
  have hpl : p ∈ l := hResSub _ hp
  have hS1 : SameSCC edges p.index q1.index :=
    (sameSCCb_iff edges l hEnd2 ⟨p, hpl, rfl⟩
      ⟨q1, hResSub _ hq1res, rfl⟩).mp hq1scc
  have hS2 : SameSCC edges p.index q2.index :=
    (sameSCCb_iff edges l hEnd2 ⟨p, hpl, rfl⟩
      ⟨q2, hResSub _ hq2res, rfl⟩).mp hq2scc
  exact hS1.symm'.trans' hS2

theorem cyclic_mem_group {edges : List (Nat × Nat)} {l res : List Program}
    (hNodup : (l.map Program.index).Nodup)
    (hEnd2 : ∀ a b : Nat, (a, b) ∈ edges → ∃ p ∈ l, p.index = b)
    (hResSub : ∀ x ∈ res, x ∈ l)
    (hRescyc : ∀ q ∈ l, Relation.TransGen (Estep edges) q.index q.index →
      q ∈ res)
    {p : Program} (hpl : p ∈ l)
    (hpc : Relation.TransGen (Estep edges) p.index p.index) :
    ∃ g ∈ cycleGroups edges l.length res, p ∈ g ∧
      ∀ q ∈ l, SameSCC edges p.index q.index → q ∈ g := by
  have hpres : p ∈ res := hRescyc p hpl hpc
  have hpG : p ∈ sccOf edges l.length res p :=
    mem_sccOf.mpr ⟨hpres, sameSCCb_refl edges l.length p.index⟩
  have hGne : sccOf edges l.length res p ≠ [] := List.ne_nil_of_mem hpG
  have hq0G : (sccOf edges l.length res p).head hGne ∈ sccOf edges l.length res p :=
    List.head_mem hGne
  obtain ⟨hq0res, hq0scc⟩ := mem_sccOf.mp hq0G
  have hq0l := hResSub _ hq0res
  have hSpq0 : SameSCC edges p.index ((sccOf edges l.length res p).head hGne).index :=
    (sameSCCb_iff edges l hEnd2 ⟨p, hpl, rfl⟩ ⟨_, hq0l, rfl⟩).mp hq0scc
  have hMemG : ∀ q ∈ l, SameSCC edges p.index q.index →
      q ∈ sccOf edges l.length res p := by
    intro q hql hS
    by_cases hqp : q = p
    · rw [hqp]; exact hpG
    · have hne : p.index ≠ q.index := by
        intro h
        exact hqp (List.inj_on_of_nodup_map hNodup hql hpl h.symm)
      have hqc : Relation.TransGen (Estep edges) q.index q.index := by
        rcases Relation.reflTransGen_iff_eq_or_transGen.mp hS.1 with h | h
        · exact absurd h (Ne.symm hne)
        · exact Relation.TransGen.trans_right hS.2 h
      exact mem_sccOf.mpr ⟨hRescyc q hql hqc,
        (sameSCCb_iff edges l hEnd2 ⟨p, hpl, rfl⟩ ⟨q, hql, rfl⟩).mpr hS⟩
  have hEq : sccOf edges l.length res ((sccOf edges l.length res p).head hGne) =
      sccOf edges l.length res p := by
    apply List.filter_congr
    intro x hxres
    rw [Bool.eq_iff_iff]
    have hxl := hResSub _ hxres
    constructor
    · intro hb
      have hS : SameSCC edges ((sccOf edges l.length res p).head hGne).index x.index :=
        (sameSCCb_iff edges l hEnd2 ⟨_, hq0l, rfl⟩ ⟨x, hxl, rfl⟩).mp hb
      exact (sameSCCb_iff edges l hEnd2 ⟨p, hpl, rfl⟩ ⟨x, hxl, rfl⟩).mpr
        (hSpq0.trans' hS)
    · intro hb
      have hS : SameSCC edges p.index x.index :=
        (sameSCCb_iff edges l hEnd2 ⟨p, hpl, rfl⟩ ⟨x, hxl, rfl⟩).mp hb
      exact (sameSCCb_iff edges l hEnd2 ⟨_, hq0l, rfl⟩ ⟨x, hxl, rfl⟩).mpr
        (hSpq0.symm'.trans' hS)
  have hhead : (sccOf edges l.length res
      ((sccOf edges l.length res p).head hGne)).head? =
      some ((sccOf edges l.length res p).head hGne) := by
    rw [hEq]
    exact List.head?_eq_head hGne
  have hnt : 1 < (sccOf edges l.length res
        ((sccOf edges l.length res p).head hGne)).length ∨
      (((sccOf edges l.length res p).head hGne).index,
        ((sccOf edges l.length res p).head hGne).index) ∈ edges := by
    rw [hEq]
    rcases Relation.TransGen.head'_iff.mp hpc with ⟨c, hstep, hback⟩
    by_cases hcp : c = p.index
    · rw [hcp] at hstep
      by_cases hq0p : (sccOf edges l.length res p).head hGne = p
      · right; rw [hq0p]; exact hstep
      · left; exact one_lt_length_of_two_mem hq0G hpG hq0p
    · left
      obtain ⟨pc, hpcl, hpci⟩ := hEnd2 _ _ hstep
      have hpcc : Relation.TransGen (Estep edges) pc.index pc.index := by
        rw [hpci]
        exact Relation.TransGen.tail' hback hstep
      have hSpc : SameSCC edges p.index pc.index := by
        rw [hpci]
        exact ⟨Relation.ReflTransGen.single hstep, hback⟩
      have hpcG : pc ∈ sccOf edges l.length res p :=
        mem_sccOf.mpr ⟨hRescyc pc hpcl hpcc,
          (sameSCCb_iff edges l hEnd2 ⟨p, hpl, rfl⟩ ⟨pc, hpcl, rfl⟩).mpr hSpc⟩
      have hpcne : pc ≠ p := by
        intro h
        exact hcp (by rw [← hpci, h])
      exact one_lt_length_of_two_mem hpcG hpG hpcne
  refine ⟨sccOf edges l.length res p,
    mem_cycleGroups.mpr ⟨(sccOf edges l.length res p).head hGne, hq0res,
      isCycleRep_iff.mpr ⟨hhead, hnt⟩, hEq.symm⟩, hpG, hMemG⟩

theorem group_separation {edges : List (Nat × Nat)} {l res : List Program}
    (hEnd2 : ∀ a b : Nat, (a, b) ∈ edges → ∃ p ∈ l, p.index = b)
    (hResSub : ∀ x ∈ res, x ∈ l)
    {g g' : List Program}
    (hg : g ∈ cycleGroups edges l.length res)
    (hg' : g' ∈ cycleGroups edges l.length res)
    {p q : Program} (hp : p ∈ g) (hq : q ∈ g')
    (hS : SameSCC edges p.index q.index) : g = g' := by
  obtain ⟨r0, hr0, _, rfl⟩ := mem_cycleGroups.mp hg
  obtain ⟨r1, hr1, _, rfl⟩ := mem_cycleGroups.mp hg'
  obtain ⟨hpres, hpscc⟩ := mem_sccOf.mp hp
  obtain ⟨hqres, hqscc⟩ := mem_sccOf.mp hq
  have hr0l := hResSub _ hr0
  have hr1l := hResSub _ hr1
  have hpL := hResSub _ hpres
  have hqL := hResSub _ hqres
  have hS0 : SameSCC edges r0.index p.index :=
    (sameSCCb_iff edges l hEnd2 ⟨r0, hr0l, rfl⟩ ⟨p, hpL, rfl⟩).mp hpscc
  have hS1 : SameSCC edges r1.index q.index :=
    (sameSCCb_iff edges l hEnd2 ⟨r1, hr1l, rfl⟩ ⟨q, hqL, rfl⟩).mp hqscc
  have hS01 : SameSCC edges r0.index r1.index :=
    (hS0.trans' hS).trans' hS1.symm'
  apply List.filter_congr
  intro x hxres
  rw [Bool.eq_iff_iff]
  have hxl := hResSub _ hxres
  constructor
  · intro hb
    have h := (sameSCCb_iff edges l hEnd2 ⟨r0, hr0l, rfl⟩ ⟨x, hxl, rfl⟩).mp hb
    exact (sameSCCb_iff edges l hEnd2 ⟨r1, hr1l, rfl⟩ ⟨x, hxl, rfl⟩).mpr
      (hS01.symm'.trans' h)
  · intro hb
    have h := (sameSCCb_iff edges l hEnd2 ⟨r1, hr1l, rfl⟩ ⟨x, hxl, rfl⟩).mp hb
    exact (sameSCCb_iff edges l hEnd2 ⟨r0, hr0l, rfl⟩ ⟨x, hxl, rfl⟩).mpr
      (hS01.trans' h)

/-! ### The deployment graph -/

theorem mem_buildEdges {l : List Program} {a b : Nat} :
    (a, b) ∈ buildEdges l ↔
      ∃ c ∈ l, c.index = b ∧ ∃ loc, (loc, a) ∈ c.dependencies := by
  simp only [buildEdges, List.mem_flatMap, List.mem_map]
  constructor
  · rintro ⟨c, hc, d, hd, heq⟩
    rw [Prod.mk.injEq] at heq
    refine ⟨c, hc, heq.2, d.1, ?_⟩
    rw [show (d.1, a) = d from by rw [← heq.1, Prod.mk.eta]]
    exact hd
  · rintro ⟨c, hc, hb, loc, hd⟩
    exact ⟨c, hc, (loc, a), hd, by rw [hb]⟩

theorem buildEdges_snd {l : List Program} {a b : Nat}
    (h : (a, b) ∈ buildEdges l) : ∃ p ∈ l, p.index = b := by
  rcases mem_buildEdges.mp h with ⟨c, hc, hb, _⟩
  exact ⟨c, hc, hb⟩

theorem depEdge_iff_buildEdges {l : List Program} {a b : Nat} :
    DepEdge l a b ↔ (a, b) ∈ buildEdges l := by
  rw [mem_buildEdges]
  rfl

theorem sortByDeploymentOrder_eq (l : List Program) :
    sortByDeploymentOrder l =
      if (kahnAux (buildEdges l) l.length l).2.isEmpty then
        Except.ok (kahnAux (buildEdges l) l.length l).1
      else Except.error (ResolverError.cyclicImport
        (cycleGroups (buildEdges l) l.length
          (kahnAux (buildEdges l) l.length l).2)) := rfl

theorem kahn_cyclic_mem_res (edges : List (Nat × Nat)) (f : Nat)
    (l : List Program)
    (hNodup : (l.map Program.index).Nodup)
    (hEnd1 : ∀ a b : Nat, (a, b) ∈ edges → ∃ p ∈ l, p.index = a) :
    ∀ p ∈ l, Relation.TransGen (Estep edges) p.index p.index →
      p ∈ (kahnAux edges f l).2 := by
  have hinv : ∀ a, Relation.TransGen (Estep edges) a a →
      ∃ q ∈ l, q.index = a := by
    intro a ha
    rcases Relation.TransGen.head'_iff.mp ha with ⟨c, hstep, _⟩
    exact hEnd1 _ _ hstep
  intro p hp hpc
  obtain ⟨q, hqres, hqi⟩ := kahn_cyclic_stays edges f l hinv p.index hpc
  have hql : q ∈ l := kahn_res_subset edges f l q hqres
  have hqp : q = p := List.inj_on_of_nodup_map hNodup hql hp hqi
  rwa [← hqp]

/-! ### The resolution pass -/

theorem rpa_nil (byLoc : List (String × Nat)) (tbl : List (String × String))
    (p : Program) : resolveProgramAux byLoc tbl p [] = (p, none) := rfl

theorem rpa_cons_dep {byLoc : List (String × Nat)}
    {tbl : List (String × String)} {loc : String} {t : Nat}
    (p : Program) (rest : List String) (h : byLoc.lookup loc = some t) :
    resolveProgramAux byLoc tbl p (loc :: rest) =
      resolveProgramAux byLoc tbl (p.addDependency loc t) rest := by
  simp only [resolveProgramAux, h]

theorem rpa_cons_alias {byLoc : List (String × Nat)}
    {tbl : List (String × String)} {loc : String} {s : String}
    (p : Program) (rest : List String)
    (h1 : byLoc.lookup loc = none) (h2 : tbl.lookup loc = some s) :
    resolveProgramAux byLoc tbl p (loc :: rest) =
      resolveProgramAux byLoc tbl (p.addAlias loc (hexToAddress s)) rest := by
  simp only [resolveProgramAux, h1, h2]

theorem rpa_cons_fail {byLoc : List (String × Nat)}
    {tbl : List (String × String)} {loc : String}
    (p : Program) (rest : List String)
    (h1 : byLoc.lookup loc = none) (h2 : tbl.lookup loc = none) :
    resolveProgramAux byLoc tbl p (loc :: rest) =
      (p, some (ResolverError.unresolvedImport p.Name loc)) := by
  simp only [resolveProgramAux, h1, h2]

theorem resolvedFrom_refl (byLoc : List (String × Nat))
    (tbl : List (String × String)) (p : Program) :
    ResolvedFrom byLoc tbl p p := by
  refine ⟨rfl, rfl, rfl, rfl, rfl, rfl, rfl, rfl, rfl, [], [], by simp, by simp,
    ?_, ?_⟩ <;> simp

theorem resolvedFrom_addDependency {byLoc : List (String × Nat)}
    {tbl : List (String × String)} {p q : Program} {loc : String} {t : Nat}
    (h : ResolvedFrom byLoc tbl (p.addDependency loc t) q)
    (hl : byLoc.lookup loc = some t) : ResolvedFrom byLoc tbl p q := by
  obtain ⟨h1, h2, h3, h4, h5, h6, h7, h8, h9, dNew, aNew, hd, ha, hdk, hak⟩ := h
  refine ⟨h1, h2, h3, h4, h5, h6, h7, h8, h9, (loc, t) :: dNew, aNew, ?_, ha, ?_, hak⟩
  · rw [hd]
    simp [Program.addDependency]
  · intro e he
    rcases List.mem_cons.mp he with rfl | he
    · exact hl
    · exact hdk e he

theorem resolvedFrom_addAlias {byLoc : List (String × Nat)}
    {tbl : List (String × String)} {p q : Program} {loc : String} {s : String}
    (h : ResolvedFrom byLoc tbl (p.addAlias loc (hexToAddress s)) q)
    (h1 : byLoc.lookup loc = none) (h2 : tbl.lookup loc = some s) :
    ResolvedFrom byLoc tbl p q := by
  obtain ⟨e1, e2, e3, e4, e5, e6, e7, e8, e9, dNew, aNew, hd, ha, hdk, hak⟩ := h
  refine ⟨e1, e2, e3, e4, e5, e6, e7, e8, e9, dNew,
    (loc, hexToAddress s) :: aNew, hd, ?_, hdk, ?_⟩
  · rw [ha]
    simp [Program.addAlias]
  · intro e he
    rcases List.mem_cons.mp he with rfl | he
    · exact ⟨h1, s, h2, rfl⟩
    · exact hak e he

theorem rpa_resolvedFrom (byLoc : List (String × Nat))
    (tbl : List (String × String)) :
    ∀ (locs : List String) (p : Program),
      ResolvedFrom byLoc tbl p (resolveProgramAux byLoc tbl p locs).1 := by
  intro locs
  induction locs with
  | nil => intro p; exact resolvedFrom_refl byLoc tbl p
  | cons loc rest ih =>
    intro p
    cases hb : byLoc.lookup loc with
    | some t =>
      rw [rpa_cons_dep p rest hb]
      exact resolvedFrom_addDependency (ih (p.addDependency loc t)) hb
    | none =>
      cases ha : tbl.lookup loc with
      | some s =>
        rw [rpa_cons_alias p rest hb ha]
        exact resolvedFrom_addAlias (ih (p.addAlias loc (hexToAddress s))) hb ha
      | none =>
        rw [rpa_cons_fail p rest hb ha]
        exact resolvedFrom_refl byLoc tbl p

theorem rpa_success_accounts (byLoc : List (String × Nat))
    (tbl : List (String × String)) :
    ∀ (locs : List String) (p p' : Program),
      resolveProgramAux byLoc tbl p locs = (p', none) →
      ∀ loc ∈ locs,
        (∃ t, byLoc.lookup loc = some t ∧ (loc, t) ∈ p'.dependencies) ∨
        (byLoc.lookup loc = none ∧
          ∃ s, tbl.lookup loc = some s ∧ (loc, hexToAddress s) ∈ p'.aliases) := by
  intro locs
  induction locs with
  | nil => intro p p' _ loc hloc; exact absurd hloc (List.not_mem_nil loc)
  | cons loc0 rest ih =>
    intro p p' hok loc hloc
    cases hb : byLoc.lookup loc0 with
    | some t =>
      rw [rpa_cons_dep p rest hb] at hok
      rcases List.mem_cons.mp hloc with rfl | hloc
      · left
        refine ⟨t, hb, ?_⟩
        obtain ⟨_, _, _, _, _, _, _, _, _, dNew, aNew, hd, _, _, _⟩ :=
          hok ▸ rpa_resolvedFrom byLoc tbl rest (p.addDependency loc t)
        have hd' : p'.dependencies =
            (p.addDependency loc t).dependencies ++ dNew := hd
        rw [hd']
        simp [Program.addDependency]
      · exact ih (p.addDependency loc0 t) p' hok loc hloc
    | none =>
      cases ha : tbl.lookup loc0 with
      | some s =>
        rw [rpa_cons_alias p rest hb ha] at hok
        rcases List.mem_cons.mp hloc with rfl | hloc
        · right
          refine ⟨hb, s, ha, ?_⟩
          obtain ⟨_, _, _, _, _, _, _, _, _, dNew, aNew, _, hal, _, _⟩ :=
            hok ▸ rpa_resolvedFrom byLoc tbl rest (p.addAlias loc (hexToAddress s))
          have hal' : p'.aliases =
              (p.addAlias loc (hexToAddress s)).aliases ++ aNew := hal
          rw [hal']
          simp [Program.addAlias]
        · exact ih (p.addAlias loc0 (hexToAddress s)) p' hok loc hloc
      | none =>
        rw [rpa_cons_fail p rest hb ha] at hok
        exact absurd (congrArg Prod.snd hok) (by simp)

theorem lookup_mem {β : Type} :
    ∀ {l : List (String × β)} {k : String} {t : β},
      l.lookup k = some t → (k, t) ∈ l := by
  intro l
  induction l with
  | nil => intro k t h; simp [List.lookup] at h
  | cons e l ih =>
    intro k t h
    obtain ⟨a, b⟩ := e
    by_cases hk : k = a
    · subst hk
      simp only [List.lookup_cons, beq_self_eq_true] at h
      rw [Option.some.injEq] at h
      rw [← h]
      exact List.mem_cons_self _ _
    · have hbeq : (k == a) = false := beq_eq_false_iff_ne.mpr hk
      simp only [List.lookup_cons, hbeq] at h
      exact List.mem_cons_of_mem _ (ih h)

theorem indices_nodup {l : List Program}
    (h : ∀ i : Fin l.length, (l.get i).index = i.val) :
    (l.map Program.index).Nodup := by
  have heq : l.map Program.index = List.range l.length := by
    apply List.ext_get
    · simp
    · intro n h1 h2
      have hn : n < l.length := by simpa using h1
      rw [List.get_map]
      rw [List.get_range]
      exact h ⟨n, hn⟩
  rw [heq]
  exact List.nodup_range _

/-! ### The program-list traversal of ResolveImports -/

theorem resolveAll_nil (byLoc : List (String × Nat))
    (tbl : List (String × String)) : resolveAll byLoc tbl [] = ([], none) := rfl

theorem resolveAll_cons_ok {byLoc : List (String × Nat)}
    {tbl : List (String × String)} {p p' : Program} (ps : List Program)
    (h : resolveProgramAux byLoc tbl p p.imports = (p', none)) :
    resolveAll byLoc tbl (p :: ps) =
      (p' :: (resolveAll byLoc tbl ps).1, (resolveAll byLoc tbl ps).2) := by
  simp only [resolveAll, h]

theorem resolveAll_cons_err {byLoc : List (String × Nat)}
    {tbl : List (String × String)} {p p' : Program} {e : ResolverError}
    (ps : List Program)
    (h : resolveProgramAux byLoc tbl p p.imports = (p', some e)) :
    resolveAll byLoc tbl (p :: ps) = (p' :: ps, some e) := by
  simp only [resolveAll, h]

theorem resolveAll_forall2 (byLoc : List (String × Nat))
    (tbl : List (String × String)) :
    ∀ ps : List Program,
      List.Forall₂ (ResolvedFrom byLoc tbl) ps (resolveAll byLoc tbl ps).1 := by
  intro ps
  induction ps with
  | nil => exact List.Forall₂.nil
  | cons p ps ih =>
    rcases hr : resolveProgramAux byLoc tbl p p.imports with ⟨p', e⟩
    have hrel : ResolvedFrom byLoc tbl p p' := by
      have h0 := rpa_resolvedFrom byLoc tbl p.imports p
      rw [hr] at h0
      exact h0
    cases e with
    | none =>
      rw [resolveAll_cons_ok ps hr]
      exact List.Forall₂.cons hrel ih
    | some err =>
      rw [resolveAll_cons_err ps hr]
      exact List.Forall₂.cons hrel
        (List.forall₂_same.mpr fun q _ => resolvedFrom_refl byLoc tbl q)

theorem resolveAll_length (byLoc : List (String × Nat))
    (tbl : List (String × String)) (ps : List Program) :
    (resolveAll byLoc tbl ps).1.length = ps.length :=
  (resolveAll_forall2 byLoc tbl ps).length_eq.symm

/-! ### Reachable resolver states -/

theorem newProgram_none {parse : Parser} {code : String} (i : Nat)
    (loc : String) (a : Nat) (n : String) (g : List String)
    (hp : parse code = none) : newProgram parse i loc code a n g = none := by
  simp [newProgram, hp]

theorem newProgram_some {parse : Parser} {code : String} {info : ParsedProgram}
    (i : Nat) (loc : String) (a : Nat) (n : String) (g : List String)
    (hp : parse code = some info) :
    newProgram parse i loc code a n g =
      some { index := i, location := loc, code := code,
             accountAddress := a, accountName := n, args := g,
             name := info.name, importLocations := info.imports,
             dependencies := [], aliases := [], kind := info.kind } := by
  simp [newProgram, hp]

theorem add_none_loader {c : ImportResolver} {loc : String} (a : Nat)
    (n : String) (g : List String) (h : c.loader loc = none) :
    c.Add loc a n g = none := by
  simp only [ImportResolver.Add, h]

theorem add_none_parse {c : ImportResolver} {loc code : String} (a : Nat)
    (n : String) (g : List String) (hl : c.loader loc = some code)
    (hp : c.parse code = none) : c.Add loc a n g = none := by
  simp only [ImportResolver.Add, hl, newProgram_none c.programs.length loc a n g hp]

theorem add_some {c : ImportResolver} {loc code : String}
    {info : ParsedProgram} (a : Nat) (n : String) (g : List String)
    (hl : c.loader loc = some code) (hp : c.parse code = some info) :
    c.Add loc a n g =
      some ({ index := c.programs.length, location := loc, code := code,
              accountAddress := a, accountName := n, args := g,
              name := info.name, importLocations := info.imports,
              dependencies := [], aliases := [], kind := info.kind },
        { c with
           programs := c.programs ++
             [{ index := c.programs.length, location := loc, code := code,
                accountAddress := a, accountName := n, args := g,
                name := info.name, importLocations := info.imports,
                dependencies := [], aliases := [], kind := info.kind }]
           programsByLocation :=
             (loc, c.programs.length) :: c.programsByLocation }) := by
  simp only [ImportResolver.Add, hl, newProgram_some c.programs.length loc a n g hp]

theorem add_eq {c : ImportResolver} {loc : String} {a : Nat} {n : String}
    {g : List String} {p : Program} {c' : ImportResolver}
    (h : c.Add loc a n g = some (p, c')) :
    ∃ code info, c.loader loc = some code ∧ c.parse code = some info ∧
      p = { index := c.programs.length, location := loc, code := code,
            accountAddress := a, accountName := n, args := g,
            name := info.name, importLocations := info.imports,
            dependencies := [], aliases := [], kind := info.kind } ∧
      c' = { c with
              programs := c.programs ++ [p]
              programsByLocation :=
                (loc, c.programs.length) :: c.programsByLocation } := by
  cases hl : c.loader loc with
  | none => rw [add_none_loader a n g hl] at h; exact absurd h (by simp)
  | some code =>
    cases hp : c.parse code with
    | none =>
      rw [add_none_parse a n g hl hp] at h
      exact absurd h (by simp)
    | some info =>
      rw [add_some a n g hl hp] at h
      simp only [Option.some.injEq, Prod.mk.injEq] at h
      refine ⟨code, info, rfl, hp, h.1.symm, ?_⟩
      rw [← h.2, ← h.1]

theorem goodState_new (loader : Loader) (parse : Parser)
    (aliases : List (String × String)) :
    GoodState (NewImportResolver loader parse aliases) := by
  refine ⟨?_, ?_, ?_⟩
  · intro i; exact absurd i.2 (by simp [NewImportResolver])
  · intro e he; exact absurd he (by simp [NewImportResolver])
  · intro p hp; exact absurd hp (by simp [NewImportResolver])

theorem goodState_add {c : ImportResolver} {loc : String} {a : Nat}
    {n : String} {g : List String} {p : Program} {c' : ImportResolver}
    (hg : GoodState c) (h : c.Add loc a n g = some (p, c')) :
    GoodState c' := by
  obtain ⟨code, info, _, _, hp, hc'⟩ := add_eq h
  obtain ⟨hg1, hg2, hg3⟩ := hg
  subst hc'
  refine ⟨?_, ?_, ?_⟩
  · intro i
    have i2 : i.val < (c.programs ++ [p]).length := i.2
    show ((c.programs ++ [p]).get ⟨i.val, i2⟩).index = i.val
    by_cases hi : i.val < c.programs.length
    · have hget : (c.programs ++ [p]).get ⟨i.val, i2⟩ =
          c.programs.get ⟨i.val, hi⟩ := by
        rw [List.get_eq_getElem, List.get_eq_getElem]
        exact List.getElem_append_left hi
      rw [hget]
      exact hg1 ⟨i.val, hi⟩
    · have hi' : i.val = c.programs.length := by
        have h2 := i2
        simp only [List.length_append, List.length_singleton] at h2
        omega
      have hget : (c.programs ++ [p]).get ⟨i.val, i2⟩ = p := by
        rw [List.get_eq_getElem]
        exact List.getElem_concat_length _ _ _ hi' _
      rw [hget]
      have hpi : p.index = c.programs.length := by rw [hp]
      rw [hpi]
      exact hi'.symm
  · intro e he
    replace he : e ∈ (loc, c.programs.length) :: c.programsByLocation := he
    show e.2 < (c.programs ++ [p]).length
    simp only [List.length_append, List.length_singleton]
    rcases List.mem_cons.mp he with rfl | he
    · simp
    · have := hg2 e he
      omega
  · intro q hq
    replace hq : q ∈ c.programs ++ [p] := hq
    rcases List.mem_append.mp hq with hq | hq
    · exact hg3 q hq
    · rw [List.mem_singleton.mp hq, hp]
      exact ⟨rfl, rfl⟩

theorem runAdds_nil (c : ImportResolver) : runAdds c [] = some c := rfl

theorem runAdds_cons_some {c : ImportResolver} {a : AddCall} {p : Program}
    {c' : ImportResolver} (rest : List AddCall)
    (h : c.Add a.location a.accountAddress a.accountName a.args = some (p, c')) :
    runAdds c (a :: rest) = runAdds c' rest := by
  simp only [runAdds, h]

theorem goodState_runAdds :
    ∀ (calls : List AddCall) (c r : ImportResolver),
      GoodState c → runAdds c calls = some r → GoodState r := by
  intro calls
  induction calls with
  | nil =>
    intro c r hg h
    rw [runAdds_nil] at h
    rw [← Option.some.inj h]
    exact hg
  | cons a rest ih =>
    intro c r hg h
    cases ha : c.Add a.location a.accountAddress a.accountName a.args with
    | none => rw [show runAdds c (a :: rest) = none from by
        simp only [runAdds, ha]] at h; exact absurd h (by simp)
    | some pc =>
      rcases pc with ⟨p, c'⟩
      rw [runAdds_cons_some rest ha] at h
      exact ih c' r (goodState_add hg ha) h

theorem resolveImports_eq (c : ImportResolver) :
    c.ResolveImports =
      ({ c with programs := (resolveAll c.programsByLocation c.aliases c.programs).1 },
       (resolveAll c.programsByLocation c.aliases c.programs).2) := rfl

/-! ### Unfolding Sort -/

theorem sort_script {c : ImportResolver}
    (h : c.programs.all Program.isContract = false) :
    c.Sort = (c, some ResolverError.notSortable) := by
  simp [ImportResolver.Sort, h]

theorem sort_resolve_err {c c1 : ImportResolver} {e : ResolverError}
    (hall : c.programs.all Program.isContract = true)
    (hr : c.ResolveImports = (c1, some e)) : c.Sort = (c1, some e) := by
  simp [ImportResolver.Sort, hall, hr]

theorem sort_cyclic {c c1 : ImportResolver} {e : ResolverError}
    (hall : c.programs.all Program.isContract = true)
    (hr : c.ResolveImports = (c1, none))
    (hs : sortByDeploymentOrder c1.programs = Except.error e) :
    c.Sort = (c1, some e) := by
  simp [ImportResolver.Sort, hall, hr, hs]

theorem sort_ok {c c1 : ImportResolver} {sorted : List Program}
    (hall : c.programs.all Program.isContract = true)
    (hr : c.ResolveImports = (c1, none))
    (hs : sortByDeploymentOrder c1.programs = Except.ok sorted) :
    c.Sort = ({ c1 with programs := sorted }, none) := by
  simp [ImportResolver.Sort, hall, hr, hs]

theorem sort_success {c r' : ImportResolver} (h : c.Sort = (r', none)) :
    c.programs.all Program.isContract = true ∧
    ∃ c1 sorted, c.ResolveImports = (c1, none) ∧
      sortByDeploymentOrder c1.programs = Except.ok sorted ∧
      r' = { c1 with programs := sorted } := by
  cases hall : c.programs.all Program.isContract with
  | false =>
    rw [sort_script hall] at h
    exact absurd (congrArg Prod.snd h) (by simp)
  | true =>
    refine ⟨rfl, ?_⟩
    rcases hr : c.ResolveImports with ⟨c1, e⟩
    cases e with
    | some err =>
      rw [sort_resolve_err hall hr] at h
      exact absurd (congrArg Prod.snd h) (by simp)
    | none =>
      cases hs : sortByDeploymentOrder c1.programs with
      | error err =>
        rw [sort_cyclic hall hr hs] at h
        exact absurd (congrArg Prod.snd h) (by simp)
      | ok sorted =>
        rw [sort_ok hall hr hs] at h
        exact ⟨c1, sorted, rfl, hs, (congrArg Prod.fst h).symm⟩

/-! ### Invariants of the resolved state -/

theorem resolved_state {c c1 : ImportResolver} {e : Option ResolverError}
    (hg : GoodState c) (h : c.ResolveImports = (c1, e)) :
    (∀ i : Fin c1.programs.length, (c1.programs.get i).index = i.val) ∧
    (∀ a b : Nat, (a, b) ∈ buildEdges c1.programs →
      ∃ p ∈ c1.programs, p.index = a) ∧
    c1.programs.length = c.programs.length := by
  obtain ⟨hg1, hg2, hg3⟩ := hg
  have hc1 : c1.programs =
      (resolveAll c.programsByLocation c.aliases c.programs).1 := by
    rw [resolveImports_eq] at h
    have h1 : ({ c with programs :=
        (resolveAll c.programsByLocation c.aliases c.programs).1 } :
        ImportResolver) = c1 := congrArg Prod.fst h
    rw [← h1]
  have hF := resolveAll_forall2 c.programsByLocation c.aliases c.programs
  rw [← hc1] at hF
  have hlen : c.programs.length = c1.programs.length := hF.length_eq
  have hidx : ∀ i : Fin c1.programs.length, (c1.programs.get i).index = i.val := by
    intro i
    have hi' : i.val < c.programs.length := by omega
    have hrel := (List.forall₂_iff_get.mp hF).2 i.val hi' i.2
    rw [hrel.1]
    exact hg1 ⟨i.val, hi'⟩
  refine ⟨hidx, ?_, hlen.symm⟩
  intro a b hab
  rcases mem_buildEdges.mp hab with ⟨cc, hcc, _, loc, hdep⟩
  rcases List.mem_iff_get.mp hcc with ⟨j, hj⟩
  have hj' : j.val < c.programs.length := by omega
  have hrel := (List.forall₂_iff_get.mp hF).2 j.val hj' j.2
  obtain ⟨_, _, _, _, _, _, _, _, _, dNew, aNew, hd, _, hdk, _⟩ := hrel
  have horig : (c.programs.get ⟨j.val, hj'⟩).dependencies = [] :=
    (hg3 _ (c.programs.get_mem j.val hj')).1
  have hdep' : (loc, a) ∈ dNew := by
    have hd2 : cc.dependencies = dNew := by
      have : (c1.programs.get ⟨j.val, j.2⟩).dependencies =
          (c.programs.get ⟨j.val, hj'⟩).dependencies ++ dNew := hd
      rw [hj] at this
      rw [this, horig, List.nil_append]
    rwa [hd2] at hdep
  have hlk := hdk _ hdep'
  have hmem := lookup_mem hlk
  have hlt : a < c.programs.length := hg2 _ hmem
  have hlt1 : a < c1.programs.length := by omega
  refine ⟨c1.programs.get ⟨a, hlt1⟩, c1.programs.get_mem a hlt1, ?_⟩
  exact hidx ⟨a, hlt1⟩

/-! ### Claim theorems -/

/-- C1: for every resolver populated by a sequence of successful `Add` calls,
if `Sort` succeeds then for all pairs of registered programs `(P, Q)` where
`P` depends on `Q` directly or transitively, `Q` appears strictly before `P`
in the resulting program order. -/
theorem sort_respects_dependencies
    (loader : Loader) (parse : Parser) (tbl : List (String × String))
    (calls : List AddCall) (r r' : ImportResolver)
    (hadd : runAdds (NewImportResolver loader parse tbl) calls = some r)
    (hsort : r.Sort = (r', none))
    (P Q : Program) (hP : P ∈ r'.programs) (hQ : Q ∈ r'.programs)
    (hdep : DependsOn r'.programs P Q) :
    IdxBefore r'.programs Q.index P.index := by
  have hg : GoodState r :=
    goodState_runAdds calls _ r (goodState_new loader parse tbl) hadd
  obtain ⟨hall, c1, sorted, hres, hsbd, hr'⟩ := sort_success hsort
  have hrp : r'.programs = sorted := by rw [hr']
  obtain ⟨hidx, hend1, hlen⟩ := resolved_state hg hres
  have hk : kahnAux (buildEdges c1.programs) c1.programs.length c1.programs =
      (sorted, []) := by
    rw [sortByDeploymentOrder_eq] at hsbd
    by_cases hemp : ((kahnAux (buildEdges c1.programs) c1.programs.length
        c1.programs).2).isEmpty
    · rw [if_pos hemp] at hsbd
      have h1 := Except.ok.inj hsbd
      have h2 : (kahnAux (buildEdges c1.programs) c1.programs.length
          c1.programs).2 = [] := List.isEmpty_iff.mp hemp
      exact Prod.ext h1 h2
    · rw [if_neg hemp] at hsbd
      exact absurd hsbd (by simp)
  have hsucc : (kahnAux (buildEdges c1.programs) c1.programs.length
      c1.programs).2 = [] := by rw [hk]
  have hNodup : (c1.programs.map Program.index).Nodup := indices_nodup hidx
  have hperm : sorted.Perm c1.programs := by
    have h0 := kahn_out_perm (buildEdges c1.programs) c1.programs.length
      c1.programs hsucc
    rw [hk] at h0
    exact h0
  have hdephi : Relation.TransGen (Estep (buildEdges c1.programs))
      Q.index P.index := by
    refine Relation.TransGen.mono ?_ hdep
    intro a b hab
    obtain ⟨cc, hcc, hccb, loc, hloc⟩ := hab
    rw [hrp] at hcc
    exact mem_buildEdges.mpr ⟨cc, hperm.mem_iff.mp hcc, hccb, loc, hloc⟩
  have hbefore := kahn_transGen_before (buildEdges c1.programs)
    c1.programs.length c1.programs hsucc hNodup hend1
    (fun a b h => buildEdges_snd h) hdephi
  rw [hk] at hbefore
  rw [hrp]
  exact hbefore

/-- C7: if any registered program is a script, `Sort` fails with the
not-sortable error before doing any other work: no import resolution is
performed and the resolver state returned is the unmodified receiver. -/
theorem sort_rejects_scripts {c : ImportResolver} {s : Program}
    (hs : s ∈ c.programs) (hns : s.isContract = false) :
    c.Sort = (c, some ResolverError.notSortable) := by
  apply sort_script
  cases hall : c.programs.all Program.isContract with
  | false => rfl
  | true =>
    have := List.all_eq_true.mp hall s hs
    rw [hns] at this
    exact absurd this (by simp)

/-- C7 witness: a resolver holding contract `A` and script `S` is rejected
unchanged. -/
theorem sort_rejects_scripts_witness :
    s7S ∈ s7R.programs ∧ s7S.isContract = false ∧
    s7R.Sort = (s7R, some ResolverError.notSortable) := by
  refine ⟨by simp [s7R], by decide, ?_⟩
  exact sort_rejects_scripts (s := s7S) (by simp [s7R]) (by decide)

/-- C9: when `Sort` succeeds it replaces the resolver's programs with the
sorted sequence produced by `sortByDeploymentOrder` on the resolved state, so
the caller's success result exposes that order and a subsequent `Programs()`
call observes it. -/
theorem sort_returns_sorted_programs {c r' : ImportResolver}
    (h : c.Sort = (r', none)) :
    ∃ c1 sorted, c.ResolveImports = (c1, none) ∧
      sortByDeploymentOrder c1.programs = Except.ok sorted ∧
      r' = { c1 with programs := sorted } ∧
      r'.Programs = sorted := by
  obtain ⟨_, c1, sorted, h1, h2, h3⟩ := sort_success h
  refine ⟨c1, sorted, h1, h2, h3, ?_⟩
  rw [ImportResolver.Programs, h3]

/-- C9 witness: the linear-chain scenario sorts to `[C, B, A]` and the
resolver returned by `Sort` exposes exactly that order. -/
theorem sort_returns_sorted_programs_witness :
    s1R.Sort = (s1R', none) ∧
    (∃ c1 sorted, s1R.ResolveImports = (c1, none) ∧
      sortByDeploymentOrder c1.programs = Except.ok sorted ∧
      s1R' = { c1 with programs := sorted } ∧
      s1R'.Programs = sorted) := by
  constructor
  · rfl
  · exact sort_returns_sorted_programs rfl

/-- C4: whenever the dependency graph over the given programs is not acyclic,
`sortByDeploymentOrder` fails with a `CyclicImportError` whose cycle groups
are exactly the strongly connected components of size greater than one (or
with a self-loop): every group member is a program on a cycle, members of one
group share a component, every cyclic program appears in a group together
with its whole component, and components never split across groups; no
partial order is returned. -/
theorem sortByDeploymentOrder_reports_all_cycles (l : List Program)
    (hNodup : (l.map Program.index).Nodup)
    (hEnd1 : ∀ a b : Nat, (a, b) ∈ buildEdges l → ∃ p ∈ l, p.index = a)
    (hCyc : ∃ a, Relation.TransGen (Estep (buildEdges l)) a a) :
    ∃ gs, sortByDeploymentOrder l =
        Except.error (ResolverError.cyclicImport gs) ∧
      (∀ g ∈ gs, ∀ p ∈ g, p ∈ l ∧
        Relation.TransGen (Estep (buildEdges l)) p.index p.index) ∧
      (∀ g ∈ gs, ∀ p ∈ g, ∀ q ∈ g, SameSCC (buildEdges l) p.index q.index) ∧
      (∀ p ∈ l, Relation.TransGen (Estep (buildEdges l)) p.index p.index →
        ∃ g ∈ gs, p ∈ g ∧
          ∀ q ∈ l, SameSCC (buildEdges l) p.index q.index → q ∈ g) ∧
      (∀ g ∈ gs, ∀ g' ∈ gs, ∀ p ∈ g, ∀ q ∈ g',
        SameSCC (buildEdges l) p.index q.index → g = g') := by
  have hResSub := kahn_res_subset (buildEdges l) l.length l
  have hLNodup : l.Nodup := List.Nodup.of_map Program.index hNodup
  have hResNodup := kahn_res_nodup (buildEdges l) l.length l hLNodup
  have hRescyc := kahn_cyclic_mem_res (buildEdges l) l.length l hNodup hEnd1
  have hEnd2 : ∀ a b : Nat, (a, b) ∈ buildEdges l → ∃ p ∈ l, p.index = b :=
    fun a b h => buildEdges_snd h
  rcases hCyc with ⟨a, ha⟩
  rcases Relation.TransGen.head'_iff.mp ha with ⟨x, hstep, _⟩
  obtain ⟨pa, hpal, hpai⟩ := hEnd1 _ _ hstep
  have hpacyc : Relation.TransGen (Estep (buildEdges l)) pa.index pa.index := by
    rw [hpai]; exact ha
  have hpares : pa ∈ (kahnAux (buildEdges l) l.length l).2 :=
    hRescyc pa hpal hpacyc
  have hne : ¬((kahnAux (buildEdges l) l.length l).2.isEmpty = true) := by
    rw [List.isEmpty_iff]
    exact List.ne_nil_of_mem hpares
  refine ⟨cycleGroups (buildEdges l) l.length
    (kahnAux (buildEdges l) l.length l).2, ?_, ?_, ?_, ?_, ?_⟩
  · rw [sortByDeploymentOrder_eq, if_neg hne]
  · intro g hg p hp
    obtain ⟨rep, hrepres, hrep, rfl⟩ := mem_cycleGroups.mp hg
    exact group_members_cyclic hNodup hEnd2 hResSub hResNodup hrepres hrep hp
  · intro g hg p hp q hq
    obtain ⟨rep, hrepres, _, rfl⟩ := mem_cycleGroups.mp hg
    exact group_same_scc hEnd2 hResSub hrepres hp hq
  · intro p hpl hpc
    exact cyclic_mem_group hNodup hEnd2 hResSub hRescyc hpl hpc
  · intro g hg g' hg' p hp q hq hS
    exact group_separation hEnd2 hResSub hg hg' hp hq hS

/-- C4 witness: the two disjoint two-cycles `A ↔ B` and `C ↔ D` are rejected
with exactly the two cycle groups `[A, B]` and `[C, D]`, and the general
characterization applies to them. -/
theorem sortByDeploymentOrder_reports_all_cycles_witness :
    (s3L.map Program.index).Nodup ∧
    sortByDeploymentOrder s3L =
      Except.error (ResolverError.cyclicImport [[s3A, s3B], [s3C, s3D]]) ∧
    (∃ gs, sortByDeploymentOrder s3L =
        Except.error (ResolverError.cyclicImport gs) ∧
      (∀ g ∈ gs, ∀ p ∈ g, p ∈ s3L ∧
        Relation.TransGen (Estep (buildEdges s3L)) p.index p.index) ∧
      (∀ g ∈ gs, ∀ p ∈ g, ∀ q ∈ g, SameSCC (buildEdges s3L) p.index q.index) ∧
      (∀ p ∈ s3L, Relation.TransGen (Estep (buildEdges s3L)) p.index p.index →
        ∃ g ∈ gs, p ∈ g ∧
          ∀ q ∈ s3L, SameSCC (buildEdges s3L) p.index q.index → q ∈ g) ∧
      (∀ g ∈ gs, ∀ g' ∈ gs, ∀ p ∈ g, ∀ q ∈ g',
        SameSCC (buildEdges s3L) p.index q.index → g = g')) := by
  refine ⟨by decide, by rfl, ?_⟩
  refine sortByDeploymentOrder_reports_all_cycles s3L (by decide) ?_ ?_
  · intro a b h
    have h' : (a, b) ∈ [(1, 0), (0, 1), (3, 2), (2, 3)] := h
    simp only [List.mem_cons, List.not_mem_nil, or_false, Prod.mk.injEq] at h'
    rcases h' with ⟨rfl, rfl⟩ | ⟨rfl, rfl⟩ | ⟨rfl, rfl⟩ | ⟨rfl, rfl⟩
    · exact ⟨s3B, by simp [s3L], rfl⟩
    · exact ⟨s3A, by simp [s3L], rfl⟩
    · exact ⟨s3D, by simp [s3L], rfl⟩
    · exact ⟨s3C, by simp [s3L], rfl⟩
  · exact ⟨0, Relation.TransGen.head
      (show (0, 1) ∈ buildEdges s3L by decide)
      (Relation.TransGen.single (show (1, 0) ∈ buildEdges s3L by decide))⟩

theorem sort_self_state {c : ImportResolver} {A : Program}
    (hp : c.programs = [A])
    (hbl : c.programsByLocation = [(A.location, 0)])
    (hidx : A.index = 0) (hdep : A.dependencies = [])
    (himp : A.importLocations = [A.location])
    (hk : A.kind = ProgramKind.contract) :
    c.Sort = ({ c with programs := [A.addDependency A.location 0] },
      some (ResolverError.cyclicImport [[A.addDependency A.location 0]])) := by
  have hall : c.programs.all Program.isContract = true := by
    rw [hp]
    simp [Program.isContract, hk]
  have hlook : c.programsByLocation.lookup A.location = some 0 := by
    rw [hbl]
    simp [List.lookup_cons]
  have hrpa : resolveProgramAux c.programsByLocation c.aliases A A.imports =
      (A.addDependency A.location 0, none) := by
    have himp' : A.imports = [A.location] := himp
    rw [himp', rpa_cons_dep A [] hlook, rpa_nil]
  have hra : resolveAll c.programsByLocation c.aliases c.programs =
      ([A.addDependency A.location 0], none) := by
    rw [hp, resolveAll_cons_ok [] hrpa, resolveAll_nil]
  have hres : c.ResolveImports =
      ({ c with programs := [A.addDependency A.location 0] }, none) := by
    rw [resolveImports_eq, hra]
  have hA'dep : (A.addDependency A.location 0).dependencies =
      [(A.location, 0)] := by
    simp [Program.addDependency, hdep]
  have hA'idx : (A.addDependency A.location 0).index = 0 := hidx
  have hedges : buildEdges [A.addDependency A.location 0] = [(0, 0)] := by
    simp [buildEdges, hA'dep, hA'idx]
  have hunready : isReady [(0, 0)] [A.addDependency A.location 0]
      (A.addDependency A.location 0) = false := by
    simp [isReady, hA'idx]
  have hpm : pickMin (([A.addDependency A.location 0]).filter
      (isReady [(0, 0)] [A.addDependency A.location 0])) = none := by
    have hfilter : ([A.addDependency A.location 0]).filter
        (isReady [(0, 0)] [A.addDependency A.location 0]) = [] := by
      rw [List.filter_eq_nil_iff]
      intro x hx
      rw [List.mem_singleton.mp hx, hunready]
      simp
    rw [hfilter]
    rfl
  have hkahn : kahnAux (buildEdges [A.addDependency A.location 0]) 1
      [A.addDependency A.location 0] = ([], [A.addDependency A.location 0]) := by
    rw [hedges]
    exact kahnAux_succ_none [(0, 0)] 0 _ hpm
  have hscc : sccOf [(0, 0)] 1 [A.addDependency A.location 0]
      (A.addDependency A.location 0) = [A.addDependency A.location 0] := by
    unfold sccOf
    rw [List.filter_cons_of_pos (by exact sameSCCb_refl [(0, 0)] 1 _),
      List.filter_nil]
  have hrep : isCycleRep [(0, 0)] 1 [A.addDependency A.location 0]
      (A.addDependency A.location 0) = true := by
    refine isCycleRep_iff.mpr ⟨by rw [hscc]; rfl, Or.inr ?_⟩
    rw [hA'idx]
    exact List.mem_singleton.mpr rfl
  have hgroups : cycleGroups [(0, 0)] 1 [A.addDependency A.location 0] =
      [[A.addDependency A.location 0]] := by
    unfold cycleGroups
    rw [List.filter_cons_of_pos hrep, List.filter_nil]
    rw [List.map_cons, List.map_nil, hscc]
  have hsbd : sortByDeploymentOrder [A.addDependency A.location 0] =
      Except.error (ResolverError.cyclicImport
        [[A.addDependency A.location 0]]) := by
    rw [sortByDeploymentOrder_eq]
    rw [show ([A.addDependency A.location 0] : List Program).length = 1 from rfl]
    rw [hkahn, hedges, hgroups]
    simp
  exact sort_cyclic hall hres hsbd

/-- C2: registering a single contract `A` whose source imports its own
location makes `Sort` fail with a `CyclicImportError` carrying exactly one
cycle group, containing only `A` (with its self-dependency recorded); the
error and the final resolver state are pinned exactly, so `Sort` neither
succeeds nor fails any other way. -/
theorem sort_self_import
    (loader : Loader) (parse : Parser) (tbl : List (String × String))
    (l0 : String) (a0 : Nat) (n0 : String) (g0 : List String)
    (A : Program) (r : ImportResolver)
    (hadd : (NewImportResolver loader parse tbl).Add l0 a0 n0 g0 = some (A, r))
    (hImp : A.importLocations = [A.location])
    (hKind : A.kind = ProgramKind.contract) :
    r.Sort = ({ r with programs := [A.addDependency A.location 0] },
      some (ResolverError.cyclicImport [[A.addDependency A.location 0]])) := by
  obtain ⟨code, info, hl, hpc, hA, hr⟩ := add_eq hadd
  have hloc : A.location = l0 := by rw [hA]
  refine sort_self_state ?_ ?_ ?_ ?_ hImp hKind
  · rw [hr]
    simp [NewImportResolver]
  · rw [hr, hloc]
    simp [NewImportResolver]
  · rw [hA]
    simp [NewImportResolver]
  · rw [hA]

/-- C1 witness: in the linear chain `C ← B ← A`, `A` transitively depends on
`C` and the sorted order places `C` strictly before `A`. -/
theorem sort_respects_dependencies_witness :
    runAdds (NewImportResolver s1Loader s1Parser []) s1Calls = some s1R ∧
    s1R.Sort = (s1R', none) ∧
    DependsOn s1R'.programs s1A' s1C ∧
    IdxBefore s1R'.programs s1C.index s1A'.index := by
  have h1 : runAdds (NewImportResolver s1Loader s1Parser []) s1Calls =
      some s1R := rfl
  have h2 : s1R.Sort = (s1R', none) := rfl
  have e01 : DepEdge s1R'.programs 0 1 :=
    ⟨s1B', by decide, by decide, "C", by decide⟩
  have e12 : DepEdge s1R'.programs 1 2 :=
    ⟨s1A', by decide, by decide, "B", by decide⟩
  have h3 : DependsOn s1R'.programs s1A' s1C :=
    Relation.TransGen.tail (Relation.TransGen.single e01) e12
  exact ⟨h1, h2, h3, sort_respects_dependencies s1Loader s1Parser [] s1Calls
    s1R s1R' h1 h2 s1A' s1C (by decide) (by decide) h3⟩

/-- C2 witness: registering the self-importing contract `A` produces exactly
one cycle group containing only `A`. -/
theorem sort_self_import_witness :
    (NewImportResolver s2Loader s2Parser []).Add "A" 1 "acc" [] =
      some (s2A, s2R) ∧
    s2R.Sort = ({ s2R with programs := [s2A.addDependency "A" 0] },
      some (ResolverError.cyclicImport [[s2A.addDependency "A" 0]])) :=
  ⟨rfl, sort_self_import s2Loader s2Parser [] "A" 1 "acc" [] s2A s2R rfl rfl rfl⟩

theorem s4_dep_only :
    ∀ a b : Nat, DepEdge s4Sorted.programs a b → a = 2 ∧ b = 0 := by
  intro a b h
  obtain ⟨c, hc, hcb, loc, hdep⟩ := h
  have hc' : c = s4P1 ∨ c = s4P2 ∨ c = s4P0' := by
    have hmem : c ∈ [s4P1, s4P2, s4P0'] := hc
    simpa using hmem
  rcases hc' with rfl | rfl | rfl
  · simp [s4P1] at hdep
  · simp [s4P2] at hdep
  · have hmem : (loc, a) ∈ [("P2", 2)] := hdep
    simp only [List.mem_singleton, Prod.mk.injEq] at hmem
    exact ⟨hmem.2, hcb.symm⟩

theorem s4_no_trans_into (b : Nat) (hb : b ≠ 0) (a : Nat) :
    ¬Relation.TransGen (DepEdge s4Sorted.programs) a b := by
  intro h
  rcases Relation.TransGen.tail'_iff.mp h with ⟨y, _, hstep⟩
  exact hb (s4_dep_only y b hstep).2

theorem s4_no_trans_1_0 :
    ¬Relation.TransGen (DepEdge s4Sorted.programs) 1 0 := by
  intro h
  rcases Relation.TransGen.tail'_iff.mp h with ⟨y, hpre, hstep⟩
  obtain ⟨hy, _⟩ := s4_dep_only y 0 hstep
  subst hy
  rcases Relation.reflTransGen_iff_eq_or_transGen.mp hpre with h2 | h2
  · exact absurd h2 (by decide)
  · exact s4_no_trans_into 2 (by decide) 1 h2

/-- C3 counterexample: in the scenario where `P0` (index 0) imports the
later-registered `P2` while `P1` (index 1) is unconstrained, `Sort` succeeds
with the order `[P1, P2, P0]`: `P0` and `P1` have no dependency relationship
and `P0` has the smaller index, yet `P0` does not appear before `P1`.  The
unconditional tie-break claim is therefore false. -/
theorem sort_tie_break_counterexample :
    s4R.Sort = (s4Sorted, none) ∧
    ¬DependsOn s4Sorted.programs s4P0' s4P1 ∧
    ¬DependsOn s4Sorted.programs s4P1 s4P0' ∧
    s4P0'.index < s4P1.index ∧
    ¬IdxBefore s4Sorted.programs s4P0'.index s4P1.index := by
  refine ⟨rfl, ?_, ?_, by decide, by decide⟩
  · exact s4_no_trans_1_0
  · exact s4_no_trans_into 1 (by decide) 0

/-- C3 amended: in the order returned by a successful `Sort`, for programs
`P`, `Q` with no dependency relationship to each other and `Q.index <
P.index`, the earlier-registered `Q` appears before `P` provided every
program `Q` (transitively) depends on also has index smaller than `P.index`
— the tie-break holds unless one of `Q`'s dependencies was registered after
`P`. -/
theorem sort_tie_break_amended
    (loader : Loader) (parse : Parser) (tbl : List (String × String))
    (calls : List AddCall) (r r' : ImportResolver)
    (hadd : runAdds (NewImportResolver loader parse tbl) calls = some r)
    (hsort : r.Sort = (r', none))
    (P Q : Program) (hP : P ∈ r'.programs) (hQ : Q ∈ r'.programs)
    (hnr1 : ¬DependsOn r'.programs P Q) (hnr2 : ¬DependsOn r'.programs Q P)
    (hlt : Q.index < P.index)
    (hdeps : ∀ R ∈ r'.programs, DependsOn r'.programs Q R →
      R.index < P.index) :
    IdxBefore r'.programs Q.index P.index := by
  have hg : GoodState r :=
    goodState_runAdds calls _ r (goodState_new loader parse tbl) hadd
  obtain ⟨hall, c1, sorted, hres, hsbd, hr'⟩ := sort_success hsort
  have hrp : r'.programs = sorted := by rw [hr']
  obtain ⟨hidx, hend1, hlen⟩ := resolved_state hg hres
  have hk : kahnAux (buildEdges c1.programs) c1.programs.length c1.programs =
      (sorted, []) := by
    rw [sortByDeploymentOrder_eq] at hsbd
    by_cases hemp : ((kahnAux (buildEdges c1.programs) c1.programs.length
        c1.programs).2).isEmpty
    · rw [if_pos hemp] at hsbd
      have h1 := Except.ok.inj hsbd
      have h2 : (kahnAux (buildEdges c1.programs) c1.programs.length
          c1.programs).2 = [] := List.isEmpty_iff.mp hemp
      exact Prod.ext h1 h2
    · rw [if_neg hemp] at hsbd
      exact absurd hsbd (by simp)
  have hsucc : (kahnAux (buildEdges c1.programs) c1.programs.length
      c1.programs).2 = [] := by rw [hk]
  have hperm : sorted.Perm c1.programs := by
    have h0 := kahn_out_perm (buildEdges c1.programs) c1.programs.length
      c1.programs hsucc
    rw [hk] at h0
    exact h0
  have hPm : P ∈ c1.programs := hperm.mem_iff.mp (by rw [← hrp]; exact hP)
  have hQm : Q ∈ c1.programs := hperm.mem_iff.mp (by rw [← hrp]; exact hQ)
  have hTD : ∀ x : Nat, Relation.TransGen (Estep (buildEdges c1.programs))
      x Q.index → x < P.index := by
    intro x hx
    rcases Relation.TransGen.head'_iff.mp hx with ⟨y, hstep, _⟩
    obtain ⟨R, hRc1, hRi⟩ := hend1 _ _ hstep
    have hRr' : R ∈ r'.programs := by
      rw [hrp]; exact hperm.mem_iff.mpr hRc1
    have hdx : Relation.TransGen (DepEdge r'.programs) x Q.index := by
      refine Relation.TransGen.mono ?_ hx
      intro a b hab
      rcases mem_buildEdges.mp hab with ⟨cc, hcc, hccb, loc, hloc⟩
      exact ⟨cc, by rw [hrp]; exact hperm.mem_iff.mpr hcc, hccb, loc, hloc⟩
    have hdep : DependsOn r'.programs Q R := by
      show Relation.TransGen (DepEdge r'.programs) R.index Q.index
      rw [hRi]; exact hdx
    have hRlt := hdeps R hRr' hdep
    rw [hRi] at hRlt
    exact hRlt
  have hms := kahn_min_stable (buildEdges c1.programs) c1.programs.length
    c1.programs hsucc P Q hPm hQm hlt hTD
  rw [hk] at hms
  rw [hrp]
  exact hms

/-- C3 amended witness: `P1` (index 1) and `P2` (index 2) are unrelated and
every dependency of `P1` (there are none) has index below 2, so `P1` comes
before `P2` in the sorted order. -/
theorem sort_tie_break_amended_witness :
    s4R.Sort = (s4Sorted, none) ∧ s4P1.index < s4P2.index ∧
    IdxBefore s4Sorted.programs s4P1.index s4P2.index := by
  have h1 : runAdds (NewImportResolver s4Loader s4Parser []) s4Calls =
      some s4R := rfl
  have h2 : s4R.Sort = (s4Sorted, none) := rfl
  refine ⟨h2, by decide, ?_⟩
  refine sort_tie_break_amended s4Loader s4Parser [] s4Calls s4R s4Sorted
    h1 h2 s4P2 s4P1 (by decide) (by decide) ?_ ?_ (by decide) ?_
  · exact s4_no_trans_into 2 (by decide) 1
  · exact s4_no_trans_into 1 (by decide) 2
  · intro R hR hd
    exact absurd hd (s4_no_trans_into 1 (by decide) R.index)

theorem resolveAll_ok_mem {byLoc : List (String × Nat)}
    {tbl : List (String × String)} :
    ∀ {ps : List Program}, (resolveAll byLoc tbl ps).2 = none →
      ∀ q ∈ (resolveAll byLoc tbl ps).1,
        ∃ p ∈ ps, resolveProgramAux byLoc tbl p p.imports = (q, none) := by
  intro ps
  induction ps with
  | nil =>
    intro _ q hq
    rw [resolveAll_nil] at hq
    exact absurd hq (List.not_mem_nil q)
  | cons p ps ih =>
    intro herr q hq
    rcases hr : resolveProgramAux byLoc tbl p p.imports with ⟨p', e⟩
    cases e with
    | none =>
      rw [resolveAll_cons_ok ps hr] at herr hq
      rcases List.mem_cons.mp hq with rfl | hq
      · exact ⟨p, List.mem_cons_self p ps, hr⟩
      · obtain ⟨p0, hp0, hp0r⟩ := ih herr q hq
        exact ⟨p0, List.mem_cons_of_mem p hp0, hp0r⟩
    | some err =>
      rw [resolveAll_cons_err ps hr] at herr
      exact absurd herr (by simp)

/-- C5: after a successful `ResolveImports` on a resolver populated by `Add`
calls, every entry of every program's import locations is accounted for in
exactly one of the two ways: as a dependency edge, or as an alias record —
never both, never neither. -/
theorem resolveImports_accounts_every_import
    (loader : Loader) (parse : Parser) (tbl : List (String × String))
    (calls : List AddCall) (r r' : ImportResolver)
    (hadd : runAdds (NewImportResolver loader parse tbl) calls = some r)
    (hres : r.ResolveImports = (r', none)) :
    ∀ p ∈ r'.programs, ∀ loc ∈ p.importLocations,
      ((∃ t, (loc, t) ∈ p.dependencies) ∧ ¬(∃ s, (loc, s) ∈ p.aliases)) ∨
      ((∃ s, (loc, s) ∈ p.aliases) ∧ ¬(∃ t, (loc, t) ∈ p.dependencies)) := by
  have hg : GoodState r :=
    goodState_runAdds calls _ r (goodState_new loader parse tbl) hadd
  have hres' := hres
  rw [resolveImports_eq] at hres'
  have hprog : r'.programs =
      (resolveAll r.programsByLocation r.aliases r.programs).1 := by
    have h1 : ({ r with programs :=
        (resolveAll r.programsByLocation r.aliases r.programs).1 } :
        ImportResolver) = r' := congrArg Prod.fst hres'
    rw [← h1]
  have herr : (resolveAll r.programsByLocation r.aliases r.programs).2 =
      none := congrArg Prod.snd hres'
  intro p hp loc hloc
  rw [hprog] at hp
  obtain ⟨p0, hp0, hr0⟩ := resolveAll_ok_mem herr p hp
  have hclean := hg.2.2 p0 hp0
  have hRF : ResolvedFrom r.programsByLocation r.aliases p0 p := by
    have h0 := rpa_resolvedFrom r.programsByLocation r.aliases p0.imports p0
    rw [hr0] at h0
    exact h0
  obtain ⟨_, _, _, _, _, _, _, himpEq, _, dNew, aNew, hd, ha, hdk, hak⟩ := hRF
  have hdeps : p.dependencies = dNew := by
    rw [hd, hclean.1, List.nil_append]
  have halias : p.aliases = aNew := by
    rw [ha, hclean.2, List.nil_append]
  have hloc0 : loc ∈ p0.imports := by
    rw [himpEq] at hloc
    exact hloc
  rcases rpa_success_accounts r.programsByLocation r.aliases p0.imports p0 p
      hr0 loc hloc0 with ⟨t, hlk, hmem⟩ | ⟨hlkn, s, hlks, hmem⟩
  · left
    refine ⟨⟨t, hmem⟩, ?_⟩
    rintro ⟨s, hs⟩
    rw [halias] at hs
    have hn := (hak _ hs).1
    simp only [hlk] at hn
    exact absurd hn (by simp)
  · right
    refine ⟨⟨hexToAddress s, hmem⟩, ?_⟩
    rintro ⟨t, ht⟩
    rw [hdeps] at ht
    have hsome := hdk _ ht
    simp only [hlkn] at hsome
    exact absurd hsome (by simp)

/-- C5 witness: in the alias scenario the single import `Foo` of `A` is
accounted for exactly once, on the alias side. -/
theorem resolveImports_accounts_every_import_witness :
    runAdds (NewImportResolver s6Loader s6Parser [("Foo", "0x01")]) s6Calls =
      some s6R ∧
    s6R.ResolveImports = (s6R', none) ∧
    (((∃ t, ("Foo", t) ∈ s6A'.dependencies) ∧
        ¬(∃ s, ("Foo", s) ∈ s6A'.aliases)) ∨
      ((∃ s, ("Foo", s) ∈ s6A'.aliases) ∧
        ¬(∃ t, ("Foo", t) ∈ s6A'.dependencies))) := by
  have h1 : runAdds (NewImportResolver s6Loader s6Parser [("Foo", "0x01")])
      s6Calls = some s6R := rfl
  have h2 : s6R.ResolveImports = (s6R', none) := rfl
  refine ⟨h1, h2, ?_⟩
  exact resolveImports_accounts_every_import s6Loader s6Parser
    [("Foo", "0x01")] s6Calls s6R s6R' h1 h2 s6A' (by decide) "Foo" (by decide)

theorem rpa_first_bad (byLoc : List (String × Nat))
    (tbl : List (String × String)) :
    ∀ (locs : List String) (p : Program) (j : Nat) (hj : j < locs.length),
      ¬CanResolve byLoc tbl (locs.get ⟨j, hj⟩) →
      (∀ (j' : Nat) (hj' : j' < locs.length), j' < j →
        CanResolve byLoc tbl (locs.get ⟨j', hj'⟩)) →
      (resolveProgramAux byLoc tbl p locs).2 =
        some (ResolverError.unresolvedImport p.Name (locs.get ⟨j, hj⟩)) := by
  intro locs
  induction locs with
  | nil => intro p j hj; exact absurd hj (by simp)
  | cons loc rest ih =>
    intro p j hj hbad hfirst
    cases j with
    | zero =>
      have hbad' : ¬(byLoc.lookup loc ≠ none ∨ tbl.lookup loc ≠ none) := hbad
      rcases not_or.mp hbad' with ⟨h1, h2⟩
      rw [rpa_cons_fail p rest (not_not.mp h1) (not_not.mp h2)]
      rfl
    | succ j' =>
      have hj'r : j' < rest.length := by simpa using hj
      have hbad' : ¬CanResolve byLoc tbl (rest.get ⟨j', hj'r⟩) := hbad
      have hfirst' : ∀ (j'' : Nat) (h : j'' < rest.length), j'' < j' →
          CanResolve byLoc tbl (rest.get ⟨j'', h⟩) := by
        intro j'' h hlt
        exact hfirst (j'' + 1) (by simpa using h) (Nat.succ_lt_succ hlt)
      have hc : CanResolve byLoc tbl loc :=
        hfirst 0 (by simp) (Nat.succ_pos j')
      cases hbl : byLoc.lookup loc with
      | some t =>
        rw [rpa_cons_dep p rest hbl]
        exact ih (p.addDependency loc t) j' hj'r hbad' hfirst'
      | none =>
        cases hbt : tbl.lookup loc with
        | some s =>
          rw [rpa_cons_alias p rest hbl hbt]
          exact ih (p.addAlias loc (hexToAddress s)) j' hj'r hbad' hfirst'
        | none =>
          exfalso
          rcases hc with h | h
          · exact h hbl
          · exact h hbt

theorem rpa_all_ok (byLoc : List (String × Nat))
    (tbl : List (String × String)) :
    ∀ (locs : List String) (p : Program),
      (∀ loc ∈ locs, CanResolve byLoc tbl loc) →
      ∃ p', resolveProgramAux byLoc tbl p locs = (p', none) := by
  intro locs
  induction locs with
  | nil => intro p _; exact ⟨p, rfl⟩
  | cons loc rest ih =>
    intro p hcan
    have hc := hcan loc (List.mem_cons_self loc rest)
    cases hbl : byLoc.lookup loc with
    | some t =>
      rw [rpa_cons_dep p rest hbl]
      exact ih (p.addDependency loc t)
        (fun l hl => hcan l (List.mem_cons_of_mem loc hl))
    | none =>
      cases hbt : tbl.lookup loc with
      | some s =>
        rw [rpa_cons_alias p rest hbl hbt]
        exact ih (p.addAlias loc (hexToAddress s))
          (fun l hl => hcan l (List.mem_cons_of_mem loc hl))
      | none =>
        exfalso
        rcases hc with h | h
        · exact h hbl
        · exact h hbt

theorem resolveAll_fail_fast (byLoc : List (String × Nat))
    (tbl : List (String × String)) :
    ∀ (ps : List Program) (i : Nat) (hi : i < ps.length)
      (j : Nat) (hj : j < (ps.get ⟨i, hi⟩).importLocations.length),
      ¬CanResolve byLoc tbl
        ((ps.get ⟨i, hi⟩).importLocations.get ⟨j, hj⟩) →
      (∀ (i' j' : Nat) (hi' : i' < ps.length)
        (hj' : j' < (ps.get ⟨i', hi'⟩).importLocations.length),
        (i' < i ∨ (i' = i ∧ j' < j)) →
        CanResolve byLoc tbl
          ((ps.get ⟨i', hi'⟩).importLocations.get ⟨j', hj'⟩)) →
      (resolveAll byLoc tbl ps).2 = some (ResolverError.unresolvedImport
        (ps.get ⟨i, hi⟩).Name
        ((ps.get ⟨i, hi⟩).importLocations.get ⟨j, hj⟩)) := by
  intro ps
  induction ps with
  | nil => intro i hi; exact absurd hi (by simp)
  | cons p ps ih =>
    intro i hi j hj hbad hfirst
    cases i with
    | zero =>
      have hbad0 : ¬CanResolve byLoc tbl (p.imports.get ⟨j, hj⟩) := hbad
      have hfirst0 : ∀ (j' : Nat) (hj' : j' < p.imports.length), j' < j →
          CanResolve byLoc tbl (p.imports.get ⟨j', hj'⟩) := by
        intro j' hj' hlt
        exact hfirst 0 j' hi hj' (Or.inr ⟨rfl, hlt⟩)
      have h1 := rpa_first_bad byLoc tbl p.imports p j hj hbad0 hfirst0
      rcases hr : resolveProgramAux byLoc tbl p p.imports with ⟨p', e⟩
      rw [hr] at h1
      have he : e = some (ResolverError.unresolvedImport p.Name
          (p.imports.get ⟨j, hj⟩)) := h1
      rw [he] at hr
      rw [resolveAll_cons_err ps hr]
      rfl
    | succ i' =>
      have hok : ∀ loc ∈ p.imports, CanResolve byLoc tbl loc := by
        intro loc hloc
        rcases List.mem_iff_get.mp hloc with ⟨⟨j', hj'⟩, hget⟩
        rw [← hget]
        exact hfirst 0 j' (by simp) hj' (Or.inl (Nat.succ_pos i'))
      obtain ⟨p', hr⟩ := rpa_all_ok byLoc tbl p.imports p hok
      rw [resolveAll_cons_ok ps hr]
      have hi'p : i' < ps.length := by simpa using hi
      refine ih i' hi'p j hj hbad ?_
      intro i'' j'' hi'' hj'' hlt
      refine hfirst (i'' + 1) j'' (by simpa using hi'') hj'' ?_
      rcases hlt with h | ⟨he, hl⟩
      · exact Or.inl (Nat.succ_lt_succ h)
      · exact Or.inr ⟨by rw [he], hl⟩

/-- C6: `ResolveImports` visits programs in registration order and each
program's imports in extraction order, and fails exactly at the first import
location (in this lexicographic order) that matches neither a registered
program nor an alias key, naming that importing program and that location;
later unresolved imports are not collected. -/
theorem resolveImports_fail_fast (c : ImportResolver)
    (i j : Nat) (hi : i < c.programs.length)
    (hj : j < (c.programs.get ⟨i, hi⟩).importLocations.length)
    (hbad : ¬CanResolve c.programsByLocation c.aliases
      ((c.programs.get ⟨i, hi⟩).importLocations.get ⟨j, hj⟩))
    (hfirst : ∀ (i' j' : Nat) (hi' : i' < c.programs.length)
      (hj' : j' < (c.programs.get ⟨i', hi'⟩).importLocations.length),
      (i' < i ∨ (i' = i ∧ j' < j)) →
      CanResolve c.programsByLocation c.aliases
        ((c.programs.get ⟨i', hi'⟩).importLocations.get ⟨j', hj'⟩)) :
    (c.ResolveImports).2 = some (ResolverError.unresolvedImport
      (c.programs.get ⟨i, hi⟩).Name
      ((c.programs.get ⟨i, hi⟩).importLocations.get ⟨j, hj⟩)) := by
  have h := resolveAll_fail_fast c.programsByLocation c.aliases c.programs
    i hi j hj hbad hfirst
  rw [resolveImports_eq]
  exact h

/-- C6 witness: with `A` (import `X`) registered before `B` (import `Y`),
both unresolvable, the error names `A` and `X`. -/
theorem resolveImports_fail_fast_witness :
    ¬CanResolve s5R.programsByLocation s5R.aliases "X" ∧
    ¬CanResolve s5R.programsByLocation s5R.aliases "Y" ∧
    (s5R.ResolveImports).2 =
      some (ResolverError.unresolvedImport "A" "X") := by
  refine ⟨by decide, by decide, ?_⟩
  have h := resolveImports_fail_fast s5R 0 0 (by decide) (by decide)
    (by decide) ?_
  · exact h
  · intro i' j' hi' hj' hlt
    exact absurd hlt (by omega)

/-- C8: in the alias scenario (`A` imports `Foo`, alias table
`Foo → 0x01`), `ResolveImports` succeeds, `A`'s alias map afterwards contains
`Foo ↦ 0x01` and `A` has no dependency edges, and `Sort` returns the
single-element order `[A]`; in general a resolution pass only ever adds a
dependency edge for an import that hits the program registry, so an
alias-resolved import never creates a graph edge. -/
theorem alias_resolution_no_edge :
    ((NewImportResolver s6Loader s6Parser [("Foo", "0x01")]).Add "A" 1 "acc" []
        = some (s6A, s6R) ∧
      s6R.ResolveImports = (s6R', none) ∧
      s6A'.aliases = [("Foo", 1)] ∧
      s6A'.dependencies = [] ∧
      s6R.Sort = (s6R', none) ∧
      s6R'.Programs = [s6A']) ∧
    (∀ (byLoc : List (String × Nat)) (tbl : List (String × String))
      (p : Program) (locs : List String) (e : String × Nat),
      e ∈ (resolveProgramAux byLoc tbl p locs).1.dependencies →
      e ∈ p.dependencies ∨ byLoc.lookup e.1 = some e.2) := by
  constructor
  · exact ⟨rfl, rfl, rfl, rfl, rfl, rfl⟩
  · intro byLoc tbl p locs e he
    obtain ⟨_, _, _, _, _, _, _, _, _, dNew, aNew, hd, _, hdk, _⟩ :=
      rpa_resolvedFrom byLoc tbl locs p
    rw [hd] at he
    rcases List.mem_append.mp he with h | h
    · exact Or.inl h
    · exact Or.inr (hdk e h)

/-- C8 witness: a registry hit does create an edge, and the created edge is
justified by the registry lookup, instantiating the general clause. -/
theorem alias_resolution_no_edge_witness :
    ("B", 1) ∈ (resolveProgramAux [("B", 1)] [] s6A ["B"]).1.dependencies ∧
    (("B", 1) ∈ s6A.dependencies ∨
      List.lookup "B" [("B", 1)] = some 1) :=
  ⟨by decide,
    alias_resolution_no_edge.2 [("B", 1)] [] s6A ["B"] ("B", 1) (by decide)⟩

theorem sort_success_perm {c r' : ImportResolver} (h : c.Sort = (r', none)) :
    ∃ c1, c.ResolveImports = (c1, none) ∧ r'.programs.Perm c1.programs := by
  obtain ⟨hall, c1, sorted, hres, hsbd, hr'⟩ := sort_success h
  have hrp : r'.programs = sorted := by rw [hr']
  have hk : kahnAux (buildEdges c1.programs) c1.programs.length c1.programs =
      (sorted, []) := by
    rw [sortByDeploymentOrder_eq] at hsbd
    by_cases hemp : ((kahnAux (buildEdges c1.programs) c1.programs.length
        c1.programs).2).isEmpty
    · rw [if_pos hemp] at hsbd
      exact Prod.ext (Except.ok.inj hsbd) (List.isEmpty_iff.mp hemp)
    · rw [if_neg hemp] at hsbd
      exact absurd hsbd (by simp)
  have hsucc : (kahnAux (buildEdges c1.programs) c1.programs.length
      c1.programs).2 = [] := by rw [hk]
  have hperm := kahn_out_perm (buildEdges c1.programs) c1.programs.length
    c1.programs hsucc
  rw [hk] at hperm
  exact ⟨c1, hres, by rw [hrp]; exact hperm⟩

theorem forall2_mem_left {α β : Type} {R : α → β → Prop}
    {l₁ : List α} {l₂ : List β} (h : List.Forall₂ R l₁ l₂) :
    ∀ a ∈ l₁, ∃ b ∈ l₂, R a b := by
  induction h with
  | nil => intro a ha; cases ha
  | cons hr hrest ih =>
    intro a ha
    rcases List.mem_cons.mp ha with h' | h'
    · exact h' ▸ ⟨_, List.mem_cons_self _ _, hr⟩
    · rcases ih a h' with ⟨b, hb, hrb⟩
      exact ⟨b, List.mem_cons_of_mem _ hb, hrb⟩

/-- C10: if `Add` is called twice with the same location and both calls
succeed, both programs are appended to `programs` with distinct indices
(`len` and `len+1`), but the registry lookup for that location yields the
later program's index, so any dependency edge that a resolution pass creates
for that location targets the later program; and whenever a subsequent `Sort`
succeeds, its output contains a program with the first index and a program
with the second index, so both registrations participate in sorting. -/
theorem add_duplicate_location {c : ImportResolver} {loc : String}
    {a1 a2 : Nat} {n1 n2 : String} {g1 g2 : List String}
    {p1 p2 : Program} {c1 c2 : ImportResolver}
    (h1 : c.Add loc a1 n1 g1 = some (p1, c1))
    (h2 : c1.Add loc a2 n2 g2 = some (p2, c2)) :
    c2.programs = c.programs ++ [p1, p2] ∧
    p1.index = c.programs.length ∧
    p2.index = c.programs.length + 1 ∧
    p1.index ≠ p2.index ∧
    c2.programsByLocation.lookup loc = some p2.index ∧
    (∀ (tbl : List (String × String)) (q : Program) (locs : List String)
        (e : String × Nat),
      e ∈ (resolveProgramAux c2.programsByLocation tbl q locs).1.dependencies →
      e ∉ q.dependencies → e.1 = loc → e.2 = p2.index) ∧
    (∀ r' : ImportResolver, c2.Sort = (r', none) →
      (∃ x ∈ r'.programs, x.index = p1.index) ∧
      (∃ x ∈ r'.programs, x.index = p2.index)) := by
  obtain ⟨code1, info1, hl1, hp1, hA1, hc1⟩ := add_eq h1
  obtain ⟨code2, info2, hl2, hp2d, hA2, hc2⟩ := add_eq h2
  have hc1p : c1.programs = c.programs ++ [p1] := by rw [hc1]
  have hc1len : c1.programs.length = c.programs.length + 1 := by
    rw [hc1p]; simp
  have hp1i : p1.index = c.programs.length := by rw [hA1]
  have hp2i : p2.index = c.programs.length + 1 := by
    rw [hA2]
    exact hc1len
  have hc2p : c2.programs = c.programs ++ [p1, p2] := by
    rw [hc2]
    show c1.programs ++ [p2] = c.programs ++ [p1, p2]
    rw [hc1p, List.append_assoc]
    rfl
  have hlook : c2.programsByLocation.lookup loc = some p2.index := by
    rw [hc2]
    show List.lookup loc
        ((loc, c1.programs.length) :: c1.programsByLocation) = some p2.index
    rw [hp2i, ← hc1len]
    simp [List.lookup]
  refine ⟨hc2p, hp1i, hp2i, by omega, hlook, ?_, ?_⟩
  · intro tbl q locs e he hnot hloc
    obtain ⟨_, _, _, _, _, _, _, _, _, dNew, aNew, hd, _, hdk, _⟩ :=
      rpa_resolvedFrom c2.programsByLocation tbl locs q
    rw [hd] at he
    rcases List.mem_append.mp he with h | h
    · exact absurd h hnot
    · have h2' := hdk e h
      rw [hloc, hlook] at h2'
      exact (Option.some.inj h2').symm
  · intro r' hsort
    obtain ⟨cc1, hres, hperm⟩ := sort_success_perm hsort
    rw [resolveImports_eq] at hres
    have hcc1 : cc1.programs =
        (resolveAll c2.programsByLocation c2.aliases c2.programs).1 := by
      have hfst := congrArg Prod.fst hres
      exact (congrArg ImportResolver.programs hfst).symm
    have hF := resolveAll_forall2 c2.programsByLocation c2.aliases c2.programs
    rw [← hcc1] at hF
    have hm1 : p1 ∈ c2.programs := by rw [hc2p]; simp
    have hm2 : p2 ∈ c2.programs := by rw [hc2p]; simp
    obtain ⟨b1, hb1mem, hb1rel⟩ := forall2_mem_left hF p1 hm1
    obtain ⟨b2, hb2mem, hb2rel⟩ := forall2_mem_left hF p2 hm2
    exact ⟨⟨b1, hperm.mem_iff.mpr hb1mem, hb1rel.1⟩,
      ⟨b2, hperm.mem_iff.mpr hb2mem, hb2rel.1⟩⟩

/-- C10 witness: registering location `A` twice on the concrete
duplicate-location scenario, instantiating every conclusion of the theorem. -/
theorem add_duplicate_location_witness :
    (s8R0.Add "A" 1 "a1" [] = some (s8A1, s8R1) ∧
      s8R1.Add "A" 2 "a2" [] = some (s8A2, s8R2)) ∧
    (s8R2.programs = s8R0.programs ++ [s8A1, s8A2] ∧
      s8A1.index = s8R0.programs.length ∧
      s8A2.index = s8R0.programs.length + 1 ∧
      s8A1.index ≠ s8A2.index ∧
      s8R2.programsByLocation.lookup "A" = some s8A2.index ∧
      (∀ (tbl : List (String × String)) (q : Program) (locs : List String)
          (e : String × Nat),
        e ∈ (resolveProgramAux s8R2.programsByLocation tbl q
              locs).1.dependencies →
        e ∉ q.dependencies → e.1 = "A" → e.2 = s8A2.index) ∧
      (∀ r' : ImportResolver, s8R2.Sort = (r', none) →
        (∃ x ∈ r'.programs, x.index = s8A1.index) ∧
        (∃ x ∈ r'.programs, x.index = s8A2.index))) :=
  ⟨⟨rfl, rfl⟩,
    add_duplicate_location
      (show s8R0.Add "A" 1 "a1" [] = some (s8A1, s8R1) from rfl)
      (show s8R1.Add "A" 2 "a2" [] = some (s8A2, s8R2) from rfl)⟩

end FlowResolvers
